import Mathlib

/-!
# Verification of the refolder engine (src/lib.rs)

Shallow embedding of the core library of the `refolder` repository
(`src/lib.rs`): file collection, even partitioning into buckets, folder
naming, and the conflict-safe relocation loop of `run`.

Modelling conventions:
* Rust `String`s are embedded as `List Char` (called `Str` below); path
  components never contain `'/'` in the concrete scenarios considered.
* A filesystem path (Rust `PathBuf`, always canonical and absolute in the
  source: `collect_files` canonicalizes the base before walking) is a list
  of components, `Path := List Str`.  `display` renders it the way Rust's
  `Path::display` renders a canonical absolute path: `"/a/b/c"`.
* The filesystem is a pair of finite lists: regular files and directories,
  each identified by its canonical path.  `fs::rename`, `fs::copy`,
  `fs::remove_file` and `fs::create_dir_all` are embedded as operations on
  this state; spurious I/O failures (notably cross-device rename failures)
  are driven by an explicit oracle so that the fallback logic of `run`
  (lib.rs lines 108-123) can be analysed.
* The glob walker is third-party crate code (`globwalk`), not part of this
  repository; it is modelled from the spec ("shell-style glob semantics
  (`*`, `?`, character classes), case-insensitively" when the builder asks
  for case-insensitivity, with `max_depth` limiting the walk depth).
* Execution is instrumented with a ghost event trace (planning events,
  directory creation, per-move processing, renames, copies, removals) used
  to state temporal claims; the trace does not influence control flow.
-/

namespace Refolder

/-- Rust strings are embedded as lists of characters. -/
abbrev Str := List Char

/-- A canonical absolute path, as its list of components. -/
abbrev Path := List Str

/-- `Path::display` of a canonical absolute path: `/c₁/c₂/…/cₙ`. -/
def display : Path → Str
  | [] => []
  | c :: rest => ('/' :: c) ++ display rest

/-- Lexicographic comparison of two strings by character code, the order
Rust uses on `str`. -/
def strLe : Str → Str → Bool
  | [], _ => true
  | _ :: _, [] => false
  | a :: as, b :: bs =>
    if a = b then strLe as bs else decide (a < b)

/-- Lexicographic comparison of two paths component-wise, the order Rust
uses on `PathBuf` (`files.sort()` in `collect_files`). -/
def pathLe : Path → Path → Bool
  | [], _ => true
  | _ :: _, [] => false
  | a :: as, b :: bs =>
    if a = b then pathLe as bs else strLe a b

/-! ## Glob matching (modelled from the spec)

Modelled from the spec: the `globwalk` crate used by `collect_files` is not
part of this repository.  The spec describes its matching as "shell-style
glob semantics (`*`, `?`, character classes)", applied per path component
(`*` and `?` do not cross `/`), case-insensitively when the builder is
configured with `case_insensitive(true)`. -/

/-- Parse the body of a character class, after the opening `[` (and after a
possible negation marker): returns the list of character ranges and the
rest of the pattern after the closing `]`, or `none` if unterminated.
(An `a-]` item ends the class with `a` and `-` taken literally.) -/
def classItems : List Char → Option (List (Char × Char) × List Char)
  | [] => none
  | ']' :: rest => some ([], rest)
  | a :: '-' :: b :: rest =>
    if b = ']' then some ([(a, a), ('-', '-')], rest)
    else
      match classItems rest with
      | some (items, r) => some ((a, b) :: items, r)
      | none => none
  | a :: rest =>
    match classItems rest with
    | some (items, r) => some ((a, a) :: items, r)
    | none => none

/-- Does `c` fall in one of the ranges of a character class? -/
def inClass (items : List (Char × Char)) (c : Char) : Bool :=
  items.any fun ab => decide (ab.1 ≤ c) && decide (c ≤ ab.2)

/-- Shell-style glob matching of one path component, case-sensitive, with
explicit fuel bounding the pattern-consumption depth (each recursive call
consumes at least one pattern character, so a fuel of the pattern length —
supplied by the `globMatch` wrapper — never runs out):
`*` matches any run of characters (any suffix of the name continues the
match), `?` any single character, `[…]` a character class (with `!`
negation and `a-b` ranges), anything else matches literally. -/
def globMatchF : Nat → List Char → List Char → Bool
  | _, [], name => name.isEmpty
  | 0, _ :: _, _ => false
  | f + 1, '*' :: ps, name => name.tails.any fun t => globMatchF f ps t
  | f + 1, '?' :: ps, name =>
    match name with
    | [] => false
    | _ :: cs => globMatchF f ps cs
  | f + 1, '[' :: ps, name =>
    match name with
    | [] => false
    | c :: cs =>
      match ps with
      | '!' :: tl =>
        match classItems tl with
        | some (items, rest) => !(inClass items c) && globMatchF f rest cs
        | none => false
      | _ =>
        match classItems ps with
        | some (items, rest) => inClass items c && globMatchF f rest cs
        | none => false
  | f + 1, p :: ps, name =>
    match name with
    | [] => false
    | c :: cs => decide (p = c) && globMatchF f ps cs

/-- Shell-style glob matching of one path component (case-sensitive). -/
def globMatch (pat name : List Char) : Bool :=
  globMatchF pat.length pat name

/-- ASCII lowercase folding of a string, used for case-insensitive
matching. -/
def lower (s : Str) : Str := s.map Char.toLower

/-- Glob matching of one path component with an optional case-insensitivity
flag (the `case_insensitive(true)` builder option of the walker). -/
def globMatchCI (ci : Bool) (pat name : Str) : Bool :=
  if ci then globMatch (lower pat) (lower name) else globMatch pat name

/-- Split a pattern on `/` into per-component segments. -/
def splitSlash : List Char → Str × List Str
  | [] => ([], [])
  | c :: rest =>
    if c = '/' then ([], (splitSlash rest).1 :: (splitSlash rest).2)
    else (c :: (splitSlash rest).1, (splitSlash rest).2)

/-- The list of `/`-separated segments of a glob pattern. -/
def patSegs (p : Str) : List Str :=
  ((splitSlash p).1) :: (splitSlash p).2

/-- Match the segments of a glob pattern against the components of a
relative path; a `**` segment may consume any number of leading
components (equivalently: the remaining segments match some suffix of the
component list). -/
def segsMatch (ci : Bool) : List Str → List Str → Bool
  | [], comps => comps.isEmpty
  | s :: ss, comps =>
    if s = ('*' :: '*' :: []) then
      comps.tails.any fun t => segsMatch ci ss t
    else
      match comps with
      | [] => false
      | c :: cs => globMatchCI ci s c && segsMatch ci ss cs

/-! ## Folder-name suffix encodings -/

/-- One decimal digit as a character. -/
def digChar (d : Nat) : Char := Char.ofNat (48 + d)

/-- The digit-extraction loop of Rust's decimal `format!("{}", n)`,
prepending the digits of `n` to `acc`; the loop runs while `n > 0`, and
`n` itself (supplied by `natRepr`) bounds the iteration count. -/
def natDigitsAuxF : Nat → Nat → List Char → List Char
  | 0, _, acc => acc
  | f + 1, n, acc =>
    if n = 0 then acc
    else natDigitsAuxF f (n / 10) (digChar (n % 10) :: acc)

/-- Decimal rendering of a natural number, Rust's `format!("{}", n)`. -/
def natRepr (n : Nat) : List Char :=
  if n = 0 then ['0'] else natDigitsAuxF n n []

/-- The loop of `format_folder_name` for the `letters` style (lib.rs lines
243-250): `i -= 1; push char of i % 26; i /= 26`, running while `i > 0`;
the initial `i` (supplied by `toLetters`) bounds the iteration count. -/
def toLettersAuxF : Nat → Nat → List Char → List Char
  | 0, _, acc => acc
  | f + 1, i, acc =>
    if i = 0 then acc
    else toLettersAuxF f ((i - 1) / 26) (Char.ofNat (97 + (i - 1) % 26) :: acc)

/-- The letter suffix of a 1-based index: 1 ↦ `a`, 26 ↦ `z`, 27 ↦ `aa`. -/
def toLetters (i : Nat) : List Char := toLettersAuxF i i []

/-! ## Errors

The source reports errors as `anyhow` strings; each constructor below
corresponds to one `anyhow!`/`with_context` site of lib.rs (the payload is
what the message interpolates). -/

inductive RunError where
  /-- "subfolders must be greater than zero" (line 25) -/
  | subfoldersZero : RunError
  /-- "Path '{}' does not exist" (line 30) -/
  | pathMissing : Path → RunError
  /-- "Path '{}' is not a directory" (line 33) -/
  | pathNotDir : Path → RunError
  /-- "Invalid filename for {}" (line 60) -/
  | invalidFilename : Path → RunError
  /-- "Destination path {} exists and is not a directory" (line 69) -/
  | destExistsNotDir : Path → RunError
  /-- "Destination file {} already exists (use --force to overwrite)" (line 94):
  the `ConflictError` of the spec, naming the destination. -/
  | conflictExists : Path → RunError
  /-- "Failed removing existing destination file {}" (line 99) -/
  | removeDestFailed : Path → RunError
  /-- "Failed copying {} to {}: {}" (line 111) -/
  | copyFailed : Path → Path → RunError
  /-- "Failed removing original file {}" (line 119) -/
  | removeSrcFailed : Path → RunError
  /-- "Unknown suffix style '{}'. Use numbers|letters|none" (line 254) -/
  | unknownSuffix : Str → RunError
deriving DecidableEq, Repr

/-! ## Filesystem model -/

/-- A filesystem state: the canonical paths of the regular files and of
the directories. -/
structure FS where
  files : List Path
  dirs : List Path
deriving DecidableEq, Repr

/-- Spurious-failure oracle for the fallible filesystem primitives: a
`renameFails` entry models e.g. a cross-device rename failure even though
the source exists; likewise for copy and remove failures. -/
structure FsOracle where
  renameFails : Path → Path → Bool
  copyFails : Path → Path → Bool
  removeFails : Path → Bool

/-- The oracle with no spurious failures. -/
def noFail : FsOracle :=
  { renameFails := fun _ _ => false
    copyFails := fun _ _ => false
    removeFails := fun _ => false }

/-- `fs::rename(src, dest)`: succeeds (replacing any file at `dest`) when
the source file exists and the oracle raises no cross-device failure. -/
def fsRename (o : FsOracle) (fs : FS) (src dest : Path) : FS × Bool :=
  if src ∈ fs.files then
    if o.renameFails src dest then (fs, false)
    else ({ fs with files := (fs.files.erase src).insert dest }, true)
  else (fs, false)

/-- `fs::copy(src, dest)`: succeeds when the source file exists and the
oracle raises no failure; the destination file is (over)written. -/
def fsCopy (o : FsOracle) (fs : FS) (src dest : Path) : FS × Bool :=
  if src ∈ fs.files then
    if o.copyFails src dest then (fs, false)
    else ({ fs with files := fs.files.insert dest }, true)
  else (fs, false)

/-- `fs::remove_file(p)`: succeeds when `p` is an existing regular file
(removing a directory with `remove_file` fails) and the oracle raises no
failure. -/
def fsRemoveFile (o : FsOracle) (fs : FS) (p : Path) : FS × Bool :=
  if p ∈ fs.files then
    if o.removeFails p then (fs, false)
    else ({ fs with files := fs.files.erase p }, true)
  else (fs, false)

/-- `fs::create_dir_all(p)`: in `run` it is only ever called on a direct
child of the existing base directory, so the single directory `p` is
created. -/
def fsCreateDir (fs : FS) (p : Path) : FS :=
  { fs with dirs := fs.dirs.insert p }

/-- `p.exists()`. -/
def fsExists (fs : FS) (p : Path) : Prop := p ∈ fs.files ∨ p ∈ fs.dirs

instance (fs : FS) (p : Path) : Decidable (fsExists fs p) := by
  unfold fsExists; infer_instance

/-! ## partition (lib.rs lines 211-236) -/

/-- The filling loop of `partition`: `k` buckets remain, each takes `base`
items plus one more while `rem` extras remain (`take = base + if i < rem`),
consuming the file list left to right (`idx` walk). -/
def fillBuckets (base : Nat) : Nat → Nat → List Path → List (List Path)
  | 0, _, _ => []
  | k + 1, rem, fs =>
    let take := base + if rem ≠ 0 then 1 else 0
    fs.take take :: fillBuckets base k (rem - 1) (fs.drop take)

/-- `partition(files, n)` (lib.rs lines 211-236): `n` buckets, the first
`files.len() % n` of size `files.len() / n + 1`, the rest of size
`files.len() / n`, filled with contiguous runs of `files` in order. -/
def partition (files : List Path) (n : Nat) : List (List Path) :=
  if n = 0 then []
  else if files.length = 0 then List.replicate n []
  else fillBuckets (files.length / n) n (files.length % n) files

/-! ## format_folder_name (lib.rs lines 238-259) -/

/-- `format_folder_name(prefix, index, suffix)`: `numbers` appends
`-{index}`, `letters` appends the bijective base-26 `-{letters}`, `none`
returns the prefix unchanged, anything else is an error. -/
def format_folder_name (pfx : Str) (index : Nat) (suffix : Str) :
    Except RunError Str :=
  if suffix = ("numbers".toList) then
    Except.ok (pfx ++ '-' :: natRepr index)
  else if suffix = ("letters".toList) then
    Except.ok (pfx ++ '-' :: toLetters index)
  else if suffix = ("none".toList) then
    Except.ok pfx
  else
    Except.error (RunError.unknownSuffix suffix)

/-! ## collect_files (lib.rs lines 138-207) -/

/-- Depth bound of a walker: `max_depth(1)` for non-recursive walks and the
inner redo walks, unbounded (`usize::MAX`) for recursive walks. -/
def depthOk (md : Option Nat) (d : Nat) : Bool :=
  match md with
  | none => true
  | some m => decide (d ≤ m)

/-- One glob walk: the regular files below `base` within the depth bound
whose relative path matches the pattern (the walker yields directories
too; the `.filter(|p| p.is_file())` of `collect_files` keeps files only,
so only `fs.files` is consulted). -/
def walkMatch (fsFiles : List Path) (base : Path) (pattern : Str)
    (md : Option Nat) (ci : Bool) : List Path :=
  fsFiles.filter fun p =>
    decide (base <+: p) && decide (base.length < p.length) &&
      depthOk md (p.length - base.length) &&
      segsMatch ci (patSegs pattern) (p.drop base.length)

/-- Push a path onto the accumulated file list unless already present
(`!files.contains(&p)` dedup of the redo rescan). -/
def pushNew (acc : List Path) (p : Path) : List Path :=
  if p ∈ acc then acc else acc ++ [p]

/-- `collect_files(base, pattern, recursive, prefix)` (lib.rs 138-207):
a case-insensitive glob walk of `base` (depth 1 unless `recursive`),
followed by the redo rescan — a one-level walk, with no case-insensitivity
flag set on its builder, inside every directory directly under `base`
whose name starts with `prefix` — deduplicating by path, then sorting by
path. -/
def collect_files (fs : FS) (base : Path) (pattern : Str) (recursive : Bool)
    (pfx : Str) : List Path :=
  List.insertionSort (fun a b => pathLe a b = true)
    ((fs.dirs.filter fun d =>
        decide (base <+: d) && decide (d.length = base.length + 1) &&
          pfx.isPrefixOf (d.getLastD [])).foldl
      (fun acc d =>
        (walkMatch fs.files d pattern (some 1) false).foldl pushNew acc)
      (walkMatch fs.files base pattern
        (if recursive then none else some 1) true))

/-! ## The run loop (lib.rs lines 14-134) -/

/-- Ghost events recording what `run` does, in order: planning a move,
creating a directory, starting to process a filtered planned move, and the
four filesystem mutations of the move logic. -/
inductive Ev where
  | plan : Path → Path → Ev
  | mkdir : Path → Ev
  | process : Path → Path → Ev
  | removeDest : Path → Ev
  | rename : Path → Path → Ev
  | copy : Path → Path → Ev
  | removeSrc : Path → Ev
deriving DecidableEq, Repr

/-- Planning events. -/
def isPlanEv : Ev → Bool
  | Ev.plan _ _ => true
  | _ => false

/-- Filesystem-mutation events (directory creation, file removal, rename,
copy). -/
def isMutEv : Ev → Bool
  | Ev.mkdir _ => true
  | Ev.removeDest _ => true
  | Ev.rename _ _ => true
  | Ev.copy _ _ => true
  | Ev.removeSrc _ => true
  | _ => false

/-- The state threaded through `run`: the filesystem, the `planned_moves`
vector, and the ghost event trace. -/
structure RunState where
  fs : FS
  planned : List (Path × Path)
  trace : List Ev
deriving DecidableEq, Repr

/-- The moves the executor iterated over (one `process` event per
iteration of the loop at lib.rs line 80). -/
def processedOf (tr : List Ev) : List (Path × Path) :=
  tr.filterMap fun e =>
    match e with
    | Ev.process s d => some (s, d)
    | _ => none

/-- The moves actually carried out (a successful rename, or a successful
copy of the copy-then-delete fallback). -/
def appliedOf (tr : List Ev) : List (Path × Path) :=
  tr.filterMap fun e =>
    match e with
    | Ev.rename s d => some (s, d)
    | Ev.copy s d => some (s, d)
    | _ => none

/-- The move primitive (lib.rs lines 108-123): attempt `fs::rename`; on
failure fall back to `fs::copy` then `fs::remove_file` of the source,
erroring with context if either fallback step fails. -/
def moveStep (o : FsOracle) (st : RunState) (src dest : Path) :
    RunState × Option RunError :=
  match fsRename o st.fs src dest with
  | (fs', true) =>
    ({ st with fs := fs', trace := st.trace ++ [Ev.rename src dest] }, none)
  | (_, false) =>
    match fsCopy o st.fs src dest with
    | (fsc, true) =>
      match fsRemoveFile o fsc src with
      | (fsd, true) =>
        ({ st with
            fs := fsd
            trace := st.trace ++ [Ev.copy src dest, Ev.removeSrc src] },
          none)
      | (_, false) =>
        ({ st with fs := fsc, trace := st.trace ++ [Ev.copy src dest] },
          some (RunError.removeSrcFailed src))
    | (_, false) => (st, some (RunError.copyFailed src dest))

/-- Processing of one filtered planned move (lib.rs lines 84-123): skip
identical source/destination; on an existing destination fail without
`force` and remove the destination file first with `force`; then move.
(The `process` ghost event marks the start of the loop iteration.) -/
def execPlanned (o : FsOracle) (force : Bool) (st : RunState)
    (src dest : Path) : RunState × Option RunError :=
  if src = dest then
    ({ st with trace := st.trace ++ [Ev.process src dest] }, none)
  else if fsExists st.fs dest then
    if force then
      match fsRemoveFile o st.fs dest with
      | (fs', true) =>
        moveStep o
          { st with
              fs := fs'
              trace := st.trace ++ [Ev.process src dest, Ev.removeDest dest] }
          src dest
      | (_, false) =>
        ({ st with trace := st.trace ++ [Ev.process src dest] },
          some (RunError.removeDestFailed dest))
    else
      ({ st with trace := st.trace ++ [Ev.process src dest] },
        some (RunError.conflictExists dest))
  else
    moveStep o { st with trace := st.trace ++ [Ev.process src dest] } src dest

/-- The executor loop over the filtered planned moves, aborting on the
first error (`?` in the source). -/
def execLoop (o : FsOracle) (force : Bool) :
    RunState → List (Path × Path) → RunState × Option RunError
  | st, [] => (st, none)
  | st, (src, dest) :: rest =>
    match execPlanned o force st src dest with
    | (st', none) => execLoop o force st' rest
    | (st', some e) => (st', some e)

/-- The planning loop of one bucket (lib.rs lines 56-63): for each source
file take its file name (erroring on a nameless path) and record the
planned move into the bucket's folder. -/
def planBucket (folderPath : Path) :
    RunState → List Path → RunState × Option RunError
  | st, [] => (st, none)
  | st, src :: rest =>
    match src.getLast? with
    | none => (st, some (RunError.invalidFilename src))
    | some name =>
      planBucket folderPath
        { st with
            planned := st.planned ++ [(src, folderPath ++ [name])]
            trace := st.trace ++ [Ev.plan src (folderPath ++ [name])] }
        rest

def runBucket (o : FsOracle) (base : Path) (pfx suffix : Str)
    (dryRun force : Bool) (st : RunState) (i : Nat) (bucket : List Path) :
    RunState × Option RunError :=
  match format_folder_name pfx (i + 1) suffix with
  | Except.error e => (st, some e)
  | Except.ok folderName =>
    match planBucket (base ++ [folderName]) st bucket with
    | (st', some e) => (st', some e)
    | (st', none) =>
      if dryRun then (st', none)
      else if fsExists st'.fs (base ++ [folderName]) then
        if (base ++ [folderName]) ∈ st'.fs.dirs then
          execLoop o force st' (st'.planned.filter fun pr =>
            (display (base ++ [folderName])).isPrefixOf (display pr.2))
        else (st', some (RunError.destExistsNotDir (base ++ [folderName])))
      else
        execLoop o force
          { st' with
              fs := fsCreateDir st'.fs (base ++ [folderName])
              trace := st'.trace ++ [Ev.mkdir (base ++ [folderName])] }
          (st'.planned.filter fun pr =>
            (display (base ++ [folderName])).isPrefixOf (display pr.2))

/-- The bucket loop of `run`, indexed from 0, aborting on the first
error. -/
def runBuckets (o : FsOracle) (base : Path) (pfx suffix : Str)
    (dryRun force : Bool) :
    RunState → Nat → List (List Path) → RunState × Option RunError
  | st, _, [] => (st, none)
  | st, i, b :: bs =>
    match runBucket o base pfx suffix dryRun force st i b with
    | (st', none) => runBuckets o base pfx suffix dryRun force st' (i + 1) bs
    | (st', some e) => (st', some e)

/-- The initial run state over a filesystem. -/
def initState (fs : FS) : RunState := { fs := fs, planned := [], trace := [] }

/-- `run` (lib.rs lines 14-134): validate the arguments and the base
directory, collect the files, return early when nothing matched, partition
into buckets and process them in order.  (The dry-run preview printing at
line 130 has no filesystem effect.) -/
def run (o : FsOracle) (fs0 : FS) (base : Path) (matching : Str)
    (subfolders : Nat) (pfx suffix : Str)
    (recursive dryRun force : Bool) : RunState × Option RunError :=
  if subfolders = 0 then (initState fs0, some RunError.subfoldersZero)
  else if ¬ fsExists fs0 base then
    (initState fs0, some (RunError.pathMissing base))
  else if base ∉ fs0.dirs then (initState fs0, some (RunError.pathNotDir base))
  else if collect_files fs0 base matching recursive pfx = [] then
    (initState fs0, none)
  else
    runBuckets o base pfx suffix dryRun force (initState fs0) 0
      (partition (collect_files fs0 base matching recursive pfx) subfolders)

/-- The number of regular files directly inside directory `d`. -/
def countFilesUnder (fs : FS) (d : Path) : Nat :=
  (fs.files.filter fun p => decide (p.dropLast = d)).length

/-! ## Lemmas about `partition` -/

theorem fillBuckets_spec (base : Nat) (k : Nat) :
    ∀ (rem : Nat) (fs : List Path), rem ≤ k → fs.length = base * k + rem →
      (fillBuckets base k rem fs).length = k ∧
      (fillBuckets base k rem fs).flatten = fs ∧
      ∀ i, i < k → ((fillBuckets base k rem fs).getD i []).length =
        if i < rem then base + 1 else base := by
  induction k with
  | zero =>
    intro rem fs hrk hlen
    have hrem : rem = 0 := Nat.le_zero.mp hrk
    have : fs = [] := List.length_eq_zero.mp (by omega)
    subst this; subst hrem
    refine ⟨rfl, rfl, fun i hi => absurd hi (Nat.not_lt_zero i)⟩
  | succ k ih =>
    intro rem fs hrk hlen
    have hmul : base * (k + 1) = base * k + base := by ring
    have htake : (base + if rem ≠ 0 then 1 else 0) ≤ fs.length := by
      by_cases hr : rem = 0 <;> simp [hr] at hlen ⊢ <;> omega
    have hdrop : (fs.drop (base + if rem ≠ 0 then 1 else 0)).length =
        base * k + (rem - 1) := by
      rw [List.length_drop]
      by_cases hr : rem = 0 <;> simp [hr] at hlen ⊢ <;> omega
    have hrk' : rem - 1 ≤ k := by omega
    obtain ⟨ihl, ihj, ihg⟩ :=
      ih (rem - 1) (fs.drop (base + if rem ≠ 0 then 1 else 0)) hrk' hdrop
    have hlentake : (fs.take (base + if rem ≠ 0 then 1 else 0)).length =
        base + if rem ≠ 0 then 1 else 0 := by
      rw [List.length_take]; omega
    refine ⟨?_, ?_, ?_⟩
    · simp only [fillBuckets, List.length_cons, ihl]
    · show (_ :: _).flatten = fs
      rw [List.flatten, ihj, List.take_append_drop]
    · intro i hi
      match i with
      | 0 =>
        simp only [fillBuckets, List.getD_cons_zero, hlentake]
        by_cases hr : rem = 0
        · simp [hr]
        · rw [if_pos (by omega : 0 < rem), if_pos hr]
      | Nat.succ j =>
        simp only [fillBuckets, List.getD_cons_succ]
        rw [ihg j (by omega)]
        by_cases hj : j + 1 < rem
        · rw [if_pos (by omega), if_pos hj]
        · rw [if_neg (by omega), if_neg hj]

theorem partition_length (files : List Path) (n : Nat) (hn : 1 ≤ n) :
    (partition files n).length = n := by
  unfold partition
  rw [if_neg (by omega)]
  by_cases h0 : files.length = 0
  · rw [if_pos h0, List.length_replicate]
  · rw [if_neg h0]
    exact (fillBuckets_spec _ n _ files
      (Nat.le_of_lt (Nat.mod_lt _ (by omega)))
      (by rw [Nat.mul_comm]; exact (Nat.div_add_mod _ _).symm)).1

theorem partition_join (files : List Path) (n : Nat) (hn : 1 ≤ n) :
    (partition files n).flatten = files := by
  unfold partition
  rw [if_neg (by omega)]
  by_cases h0 : files.length = 0
  · rw [if_pos h0]
    have : files = [] := List.length_eq_zero.mp h0
    subst this
    simp [List.flatten_replicate_nil]
  · rw [if_neg h0]
    exact (fillBuckets_spec _ n _ files
      (Nat.le_of_lt (Nat.mod_lt _ (by omega)))
      (by rw [Nat.mul_comm]; exact (Nat.div_add_mod _ _).symm)).2.1

theorem partition_sizes (files : List Path) (n : Nat) (hn : 1 ≤ n) :
    ∀ i, i < n → ((partition files n).getD i []).length =
      if i < files.length % n then files.length / n + 1
      else files.length / n := by
  intro i hi
  unfold partition
  rw [if_neg (by omega)]
  by_cases h0 : files.length = 0
  · rw [if_pos h0]
    have hrep : (List.replicate n ([] : List Path)).getD i [] = [] := by
      rw [List.getD_eq_getElem?_getD, List.getElem?_replicate, if_pos hi]
      rfl
    rw [hrep, h0]
    simp [Nat.zero_mod, Nat.zero_div]
  · rw [if_neg h0]
    exact (fillBuckets_spec _ n _ files
      (Nat.le_of_lt (Nat.mod_lt _ (by omega)))
      (by rw [Nat.mul_comm]; exact (Nat.div_add_mod _ _).symm)).2.2 i hi

/-! ## Value semantics of the two suffix encodings -/

theorem charOfNat_toNat (n : Nat) (h : n.isValidChar) :
    (Char.ofNat n).toNat = n := by
  unfold Char.ofNat
  rw [dif_pos h]
  rfl

/-- Left-to-right bijective base-26 value of a letter string, digit values
`'a' = 1 … 'z' = 26`, starting from accumulator `v`. -/
def lettersVal (v : Nat) (s : List Char) : Nat :=
  s.foldl (fun a c => a * 26 + (c.toNat - 96)) v

/-- Left-to-right decimal value of a digit string starting from
accumulator `v`. -/
def decVal (v : Nat) (s : List Char) : Nat :=
  s.foldl (fun a c => a * 10 + (c.toNat - 48)) v

theorem lettersVal_toLettersAuxF (f : Nat) :
    ∀ i acc, i ≤ f → lettersVal 0 (toLettersAuxF f i acc) = lettersVal i acc := by
  induction f with
  | zero =>
    intro i acc h
    have hi : i = 0 := by omega
    subst hi
    rfl
  | succ f ih =>
    intro i acc h
    by_cases hi : i = 0
    · subst hi
      show lettersVal 0 acc = lettersVal 0 acc
      rfl
    · show lettersVal 0
          (if i = 0 then acc
           else toLettersAuxF f ((i - 1) / 26)
             (Char.ofNat (97 + (i - 1) % 26) :: acc)) = _
      rw [if_neg hi]
      have hle : (i - 1) / 26 ≤ f := by
        have := Nat.div_le_self (i - 1) 26
        omega
      rw [ih _ _ hle]
      show lettersVal (((i - 1) / 26) * 26 +
          ((Char.ofNat (97 + (i - 1) % 26)).toNat - 96)) acc = _
      have hval : (Char.ofNat (97 + (i - 1) % 26)).toNat = 97 + (i - 1) % 26 :=
        charOfNat_toNat _ (Or.inl (by omega))
      rw [hval]
      have harith : ((i - 1) / 26) * 26 + (97 + (i - 1) % 26 - 96) = i := by
        omega
      rw [harith]

theorem lettersVal_toLetters (i : Nat) : lettersVal 0 (toLetters i) = i :=
  lettersVal_toLettersAuxF i i [] (Nat.le_refl i)

theorem toLetters_injective {i j : Nat} (h : toLetters i = toLetters j) :
    i = j := by
  have := lettersVal_toLetters i
  rw [h, lettersVal_toLetters j] at this
  omega

theorem decVal_natDigitsAuxF (f : Nat) :
    ∀ n acc, n ≤ f → decVal 0 (natDigitsAuxF f n acc) = decVal n acc := by
  induction f with
  | zero =>
    intro n acc h
    have hn : n = 0 := by omega
    subst hn
    rfl
  | succ f ih =>
    intro n acc h
    by_cases hn : n = 0
    · subst hn
      show decVal 0 acc = decVal 0 acc
      rfl
    · show decVal 0
          (if n = 0 then acc
           else natDigitsAuxF f (n / 10) (digChar (n % 10) :: acc)) = _
      rw [if_neg hn]
      have hle : n / 10 ≤ f := by
        have := Nat.div_le_self n 10
        have := Nat.div_lt_self (Nat.pos_of_ne_zero hn) (by decide : 1 < 10)
        omega
      rw [ih _ _ hle]
      show decVal ((n / 10) * 10 + ((digChar (n % 10)).toNat - 48)) acc = _
      have hval : (digChar (n % 10)).toNat = 48 + n % 10 :=
        charOfNat_toNat _ (Or.inl (by omega))
      rw [hval]
      have harith : (n / 10) * 10 + (48 + n % 10 - 48) = n := by omega
      rw [harith]

theorem decVal_natRepr (n : Nat) (hn : 1 ≤ n) : decVal 0 (natRepr n) = n := by
  unfold natRepr
  rw [if_neg (by omega)]
  rw [decVal_natDigitsAuxF n n [] (Nat.le_refl n)]
  rfl

theorem natRepr_injective {i j : Nat} (hi : 1 ≤ i) (hj : 1 ≤ j)
    (h : natRepr i = natRepr j) : i = j := by
  have := decVal_natRepr i hi
  rw [h, decVal_natRepr j hj] at this
  omega

theorem lettersVal_le (t : List Char) : ∀ v, v ≤ lettersVal v t := by
  induction t with
  | nil => intro v; exact Nat.le_refl v
  | cons c cs ih =>
    intro v
    calc v ≤ v * 26 + (c.toNat - 96) :=
          Nat.le_add_right_of_le (Nat.le_mul_of_pos_right v (by decide))
      _ ≤ lettersVal (v * 26 + (c.toNat - 96)) cs := ih _
      _ = lettersVal v (c :: cs) := rfl

theorem decVal_le (t : List Char) : ∀ v, v ≤ decVal v t := by
  induction t with
  | nil => intro v; exact Nat.le_refl v
  | cons c cs ih =>
    intro v
    calc v ≤ v * 10 + (c.toNat - 48) :=
          Nat.le_add_right_of_le (Nat.le_mul_of_pos_right v (by decide))
      _ ≤ decVal (v * 10 + (c.toNat - 48)) cs := ih _
      _ = decVal v (c :: cs) := rfl

theorem lettersVal_append (u t : List Char) :
    ∀ v, lettersVal v (u ++ t) = lettersVal (lettersVal v u) t := by
  induction u with
  | nil => intro v; rfl
  | cons c cs ih => intro v; exact ih _

theorem decVal_append (u t : List Char) :
    ∀ v, decVal v (u ++ t) = decVal (decVal v u) t := by
  induction u with
  | nil => intro v; rfl
  | cons c cs ih => intro v; exact ih _

/-- A bijective base-26 string that is a prefix of another denotes a
smaller-or-equal index. -/
theorem toLetters_prefix_le {a b : Nat}
    (h : toLetters a <+: toLetters b) : a ≤ b := by
  obtain ⟨t, ht⟩ := h
  have hb := lettersVal_toLetters b
  rw [← ht, lettersVal_append, lettersVal_toLetters a] at hb
  have := lettersVal_le t a
  omega

/-- A decimal string that is a prefix of another denotes a
smaller-or-equal value (for positive values). -/
theorem natRepr_prefix_le {a b : Nat} (ha : 1 ≤ a) (hb : 1 ≤ b)
    (h : natRepr a <+: natRepr b) : a ≤ b := by
  obtain ⟨t, ht⟩ := h
  have hvb := decVal_natRepr b hb
  rw [← ht, decVal_append, decVal_natRepr a ha] at hvb
  have := decVal_le t a
  omega

/-- Every character produced by the letters encoding is a lowercase
letter. -/
theorem toLettersAuxF_chars (f : Nat) :
    ∀ i acc, (∀ c ∈ acc, 97 ≤ c.toNat ∧ c.toNat ≤ 122) →
      ∀ c ∈ toLettersAuxF f i acc, 97 ≤ c.toNat ∧ c.toNat ≤ 122 := by
  induction f with
  | zero => intro i acc hacc; exact hacc
  | succ f ih =>
    intro i acc hacc
    by_cases hi : i = 0
    · subst hi; exact hacc
    · show ∀ c ∈
          (if i = 0 then acc
           else toLettersAuxF f ((i - 1) / 26)
             (Char.ofNat (97 + (i - 1) % 26) :: acc)),
          97 ≤ c.toNat ∧ c.toNat ≤ 122
      rw [if_neg hi]
      refine ih _ _ ?_
      intro c hc
      rcases List.mem_cons.mp hc with h | h
      · subst h
        rw [charOfNat_toNat _ (Or.inl (by omega))]
        omega
      · exact hacc c h

theorem toLetters_chars (i : Nat) :
    ∀ c ∈ toLetters i, 97 ≤ c.toNat ∧ c.toNat ≤ 122 :=
  toLettersAuxF_chars i i [] (by intro c hc; cases hc)

/-- Every character produced by the decimal encoding is a digit. -/
theorem natDigitsAuxF_chars (f : Nat) :
    ∀ n acc, (∀ c ∈ acc, 48 ≤ c.toNat ∧ c.toNat ≤ 57) →
      ∀ c ∈ natDigitsAuxF f n acc, 48 ≤ c.toNat ∧ c.toNat ≤ 57 := by
  induction f with
  | zero => intro n acc hacc; exact hacc
  | succ f ih =>
    intro n acc hacc
    by_cases hn : n = 0
    · subst hn; exact hacc
    · show ∀ c ∈
          (if n = 0 then acc
           else natDigitsAuxF f (n / 10) (digChar (n % 10) :: acc)),
          48 ≤ c.toNat ∧ c.toNat ≤ 57
      rw [if_neg hn]
      refine ih _ _ ?_
      intro c hc
      rcases List.mem_cons.mp hc with h | h
      · subst h
        unfold digChar
        rw [charOfNat_toNat _ (Or.inl (by omega))]
        omega
      · exact hacc c h

theorem natRepr_chars (n : Nat) :
    ∀ c ∈ natRepr n, 48 ≤ c.toNat ∧ c.toNat ≤ 57 := by
  unfold natRepr
  by_cases h : n = 0
  · rw [if_pos h]
    intro c hc
    rcases List.mem_singleton.mp hc with rfl
    exact ⟨by decide, by decide⟩
  · rw [if_neg h]
    exact natDigitsAuxF_chars n n [] (by intro c hc; cases hc)

/-! ## Concrete scenarios

Small filesystem states used to evaluate `run` on concrete inputs: a base
directory `/b` with a handful of `.txt` files, in the configurations the
claims talk about. -/

/-- The base directory `/b`. -/
def exBase : Path := [("b".toList)]

/-- The pattern `*.txt`. -/
def txtPat : Str := ("*.txt".toList)

/-- The folder name prefix `pack`. -/
def packPfx : Str := ("pack".toList)

/-- Five files `file0.txt` … `file4.txt` directly in `/b`. -/
def fiveFilesFS : FS :=
  { files := [exBase ++ [("file0.txt".toList)], exBase ++ [("file1.txt".toList)],
              exBase ++ [("file2.txt".toList)], exBase ++ [("file3.txt".toList)],
              exBase ++ [("file4.txt".toList)]]
    dirs := [exBase] }

/-- Two files `a.txt`, `b.txt` directly in `/b`. -/
def twoFilesFS : FS :=
  { files := [exBase ++ [("a.txt".toList)], exBase ++ [("b.txt".toList)]]
    dirs := [exBase] }

/-- An empty base directory: nothing matches any pattern. -/
def emptyFS : FS := { files := [], dirs := [exBase] }

/-- A base directory whose only file is `/b/pack-1/A.TXT`, inside an
existing prefixed destination folder, with its name upper-cased. -/
def upperInPackFS : FS :=
  { files := [exBase ++ [("pack-1".toList), ("A.TXT".toList)]]
    dirs := [exBase, exBase ++ [("pack-1".toList)]] }

/-- A base directory whose only file is `/b/B.TXT`, directly in the base,
with its name upper-cased. -/
def upperInBaseFS : FS :=
  { files := [exBase ++ [("B.TXT".toList)]]
    dirs := [exBase] }

/-- First run of the redo scenario: five files into three `pack-N`
folders. -/
def fiveRun1 : RunState × Option RunError :=
  run noFail fiveFilesFS exBase txtPat 3 packPfx ("numbers".toList)
    false false true

/-- Second run of the redo scenario: identical arguments on the resulting
filesystem. -/
def fiveRun2 : RunState × Option RunError :=
  run noFail fiveRun1.1.fs exBase txtPat 3 packPfx ("numbers".toList)
    false false true

/-- Every filesystem-mutation event in the trace happens after every
planning event (the property C4 asserts of a whole run). -/
def plansBeforeMuts (tr : List Ev) : Prop :=
  ∀ j, j < tr.length → ∀ i, i < j →
    isMutEv (tr.getD i (Ev.mkdir [])) = true →
    isPlanEv (tr.getD j (Ev.mkdir [])) = false

instance (tr : List Ev) : Decidable (plansBeforeMuts tr) := by
  unfold plansBeforeMuts
  infer_instance

theorem toLetters_no_slash (i : Nat) : ∀ c ∈ toLetters i, c ≠ '/' := by
  intro c hc
  have := toLetters_chars i c hc
  intro he
  subst he
  simp at this

theorem natRepr_no_slash (n : Nat) : ∀ c ∈ natRepr n, c ≠ '/' := by
  intro c hc
  have := natRepr_chars n c hc
  intro he
  subst he
  simp at this

/-! ## Claims -/

/-- C2: for every file list and bucket count `n ≥ 1`, `partition` returns
`n` buckets whose concatenation in order is the input, whose sizes sum to
the input length, and where bucket `i` has size `⌈f/n⌉ = f/n + 1` exactly
for the first `f mod n` indices and size `⌊f/n⌋` for the rest. -/
theorem partition_balanced_split (files : List Path) (n : Nat) (hn : 1 ≤ n) :
    (partition files n).length = n ∧
    (partition files n).flatten = files ∧
    ((partition files n).map List.length).sum = files.length ∧
    ∀ i, i < n → ((partition files n).getD i []).length =
      if i < files.length % n then files.length / n + 1
      else files.length / n := by
  refine ⟨partition_length files n hn, partition_join files n hn, ?_,
    partition_sizes files n hn⟩
  rw [← List.length_flatten, partition_join files n hn]

theorem partition_balanced_split_witness :
    (partition [exBase ++ [("a.txt".toList)], exBase ++ [("b.txt".toList)],
        exBase ++ [("c.txt".toList)]] 2).length = 2 ∧
    (partition [exBase ++ [("a.txt".toList)], exBase ++ [("b.txt".toList)],
        exBase ++ [("c.txt".toList)]] 2).flatten =
      [exBase ++ [("a.txt".toList)], exBase ++ [("b.txt".toList)],
        exBase ++ [("c.txt".toList)]] ∧
    ((partition [exBase ++ [("a.txt".toList)], exBase ++ [("b.txt".toList)],
        exBase ++ [("c.txt".toList)]] 2).map List.length).sum = 3 ∧
    ∀ i, i < 2 → ((partition [exBase ++ [("a.txt".toList)],
        exBase ++ [("b.txt".toList)], exBase ++ [("c.txt".toList)]] 2).getD
          i []).length =
      if i < 3 % 2 then 3 / 2 + 1 else 3 / 2 :=
  partition_balanced_split _ 2 (by decide)

/-- C7: letter naming is the bijective base-26 spreadsheet-column encoding
(`1 ↦ a`, `26 ↦ z`, `27 ↦ aa`), injective on `[1, 10000]`; style `none`
returns the prefix unchanged; an unrecognized style fails with the
unknown-suffix error. -/
theorem folder_naming_styles :
    (∀ pfx : Str, format_folder_name pfx 1 ("letters".toList) =
        Except.ok (pfx ++ ('-' :: 'a' :: []))) ∧
    (∀ pfx : Str, format_folder_name pfx 26 ("letters".toList) =
        Except.ok (pfx ++ ('-' :: 'z' :: []))) ∧
    (∀ pfx : Str, format_folder_name pfx 27 ("letters".toList) =
        Except.ok (pfx ++ ('-' :: 'a' :: 'a' :: []))) ∧
    (∀ (pfx : Str) (i j : Nat), 1 ≤ i → i ≤ 10000 → 1 ≤ j → j ≤ 10000 →
      i ≠ j →
      format_folder_name pfx i ("letters".toList) ≠
        format_folder_name pfx j ("letters".toList)) ∧
    (∀ (pfx : Str) (i : Nat),
      format_folder_name pfx i ("none".toList) = Except.ok pfx) ∧
    (∀ (pfx s : Str) (i : Nat), s ≠ ("numbers".toList) →
      s ≠ ("letters".toList) → s ≠ ("none".toList) →
      format_folder_name pfx i s = Except.error (RunError.unknownSuffix s)) := by
  refine ⟨fun pfx => rfl, fun pfx => rfl, fun pfx => rfl, ?_, fun pfx i => rfl,
    ?_⟩
  · intro pfx i j _ _ _ _ hne heq
    unfold format_folder_name at heq
    rw [if_neg (by decide), if_pos rfl, if_neg (by decide), if_pos rfl] at heq
    injection heq with heq
    have := List.append_cancel_left heq
    injection this with _ this
    exact hne (toLetters_injective this)
  · intro pfx s i h1 h2 h3
    unfold format_folder_name
    rw [if_neg h1, if_neg h2, if_neg h3]

theorem folder_naming_styles_witness :
    format_folder_name packPfx 1 ("letters".toList) =
      Except.ok (packPfx ++ ('-' :: 'a' :: [])) ∧
    format_folder_name packPfx 5 ("letters".toList) ≠
      format_folder_name packPfx 6 ("letters".toList) ∧
    format_folder_name packPfx 7 ("none".toList) = Except.ok packPfx ∧
    format_folder_name packPfx 7 ("misc".toList) =
      Except.error (RunError.unknownSuffix ("misc".toList)) :=
  ⟨folder_naming_styles.1 packPfx,
   folder_naming_styles.2.2.2.1 packPfx 5 6 (by decide) (by decide) (by decide)
     (by decide) (by decide),
   folder_naming_styles.2.2.2.2.1 packPfx 7,
   folder_naming_styles.2.2.2.2.2 packPfx ("misc".toList) 7 (by decide)
     (by decide) (by decide)⟩

/-- C10: the redo scenario is idempotent — after splitting five files into
three `pack-N` folders, re-running with identical arguments plans every
move onto its current location, performs no filesystem mutation, leaves
the filesystem unchanged, and the three destination folders still hold
five files in total. -/
theorem redo_idempotent_five_into_three :
    fiveRun1.2 = none ∧ fiveRun2.2 = none ∧
    fiveRun2.1.trace.filter isMutEv = [] ∧
    (∀ pr ∈ fiveRun2.1.planned, pr.1 = pr.2) ∧
    fiveRun2.1.fs = fiveRun1.1.fs ∧
    countFilesUnder fiveRun2.1.fs (exBase ++ [packPfx ++ '-' :: natRepr 1]) +
      countFilesUnder fiveRun2.1.fs (exBase ++ [packPfx ++ '-' :: natRepr 2]) +
      countFilesUnder fiveRun2.1.fs (exBase ++ [packPfx ++ '-' :: natRepr 3])
      = 5 := by
  decide

/-- C3 (failing input): with suffix style `none` and two files split into
two buckets, the executor processes the first bucket's planned move a
second time while executing the second bucket — the string-prefix filter
at lib.rs line 82 selects every earlier move whose destination lies in the
same (shared) folder — and the re-processed move then aborts the run with
a conflict error on its own destination. -/
theorem none_style_move_reprocessed :
    List.count
        (exBase ++ [("a.txt".toList)],
          exBase ++ [packPfx, ("a.txt".toList)])
        (processedOf (run noFail twoFilesFS exBase txtPat 2 packPfx
          ("none".toList) false false false).1.trace) = 2 ∧
    (run noFail twoFilesFS exBase txtPat 2 packPfx ("none".toList)
        false false false).2 =
      some (RunError.conflictExists
        (exBase ++ [packPfx, ("a.txt".toList)])) := by
  decide

/-- C1 does not hold as stated: with suffix style `none` (two files, two
buckets), the planned-move list computed by the dry run has two pairs, but
the real run with identical arguments applies only the first of them and
then aborts on the spurious conflict of the re-processed move. -/
theorem dry_planned_ne_real_applied :
    (run noFail twoFilesFS exBase txtPat 2 packPfx ("none".toList)
        false true false).1.planned ≠
      appliedOf (run noFail twoFilesFS exBase txtPat 2 packPfx
        ("none".toList) false false false).1.trace := by
  decide

/-- C4 does not hold as stated: in the two-file, two-bucket `numbers` run,
a mutation of bucket 1 (creating `pack-1` and renaming `a.txt` into it)
happens before bucket 2's move is planned. -/
theorem mutation_before_later_planning :
    ¬ plansBeforeMuts (run noFail twoFilesFS exBase txtPat 2 packPfx
        ("numbers".toList) false false false).1.trace := by
  decide

/-- C5 does not hold as stated: when no file matches, `run` returns
successfully without creating any destination folder (early return at
lib.rs line 40), so no `pack-1` folder exists afterwards. -/
theorem no_match_creates_no_folder :
    (run noFail emptyFS exBase txtPat 2 packPfx ("numbers".toList)
        false false false).2 = none ∧
    (exBase ++ [packPfx ++ '-' :: natRepr 1]) ∉
      (run noFail emptyFS exBase txtPat 2 packPfx ("numbers".toList)
        false false false).1.fs.dirs := by
  decide

/-- C6 does not hold as stated: `/b/pack-1/A.TXT` matches `*.txt` up to
letter case (the case-insensitive matcher accepts it), yet `collect_files`
does not collect it — the redo rescan's walker is built without the
case-insensitivity flag (lib.rs lines 190-193). -/
theorem rescan_misses_case_differing_file :
    globMatchCI true txtPat ("A.TXT".toList) = true ∧
    (exBase ++ [("pack-1".toList), ("A.TXT".toList)]) ∉
      collect_files upperInPackFS exBase txtPat false packPfx := by
  decide

/-- C9: the move primitive attempts the rename first (when the rename
succeeds nothing else runs); on a spurious rename failure it falls back to
copy-then-delete-source: a failing copy surfaces the copy error with the
filesystem unchanged — the source file in particular is intact; a failing
delete surfaces the delete error with the copy applied and the source
still present; when both fallback steps succeed the source is removed
only after the copy, in that trace order. -/
theorem move_primitive_fallback (o : FsOracle) (st : RunState)
    (src dest : Path) (hsrc : src ∈ st.fs.files) :
    (o.renameFails src dest = false →
      moveStep o st src dest =
        ({ st with
            fs := { st.fs with files := (st.fs.files.erase src).insert dest },
            trace := st.trace ++ [Ev.rename src dest] }, none)) ∧
    (o.renameFails src dest = true → o.copyFails src dest = true →
      moveStep o st src dest = (st, some (RunError.copyFailed src dest)) ∧
        src ∈ (moveStep o st src dest).1.fs.files) ∧
    (o.renameFails src dest = true → o.copyFails src dest = false →
      o.removeFails src = true →
      moveStep o st src dest =
        ({ st with
            fs := { st.fs with files := st.fs.files.insert dest },
            trace := st.trace ++ [Ev.copy src dest] },
          some (RunError.removeSrcFailed src)) ∧
        src ∈ (moveStep o st src dest).1.fs.files) ∧
    (o.renameFails src dest = true → o.copyFails src dest = false →
      o.removeFails src = false →
      moveStep o st src dest =
        ({ st with
            fs := { st.fs with
              files := (st.fs.files.insert dest).erase src },
            trace := st.trace ++ [Ev.copy src dest, Ev.removeSrc src] },
          none)) := by
  refine ⟨?_, ?_, ?_, ?_⟩
  · intro hr
    simp [moveStep, fsRename, hsrc, hr]
  · intro hr hc
    have heq : moveStep o st src dest =
        (st, some (RunError.copyFailed src dest)) := by
      simp [moveStep, fsRename, fsCopy, hsrc, hr, hc]
    exact ⟨heq, by rw [heq]; exact hsrc⟩
  · intro hr hc hd
    have heq : moveStep o st src dest =
        ({ st with
            fs := { st.fs with files := st.fs.files.insert dest },
            trace := st.trace ++ [Ev.copy src dest] },
          some (RunError.removeSrcFailed src)) := by
      simp [moveStep, fsRename, fsCopy, fsRemoveFile, hsrc, hr, hc, hd,
        List.mem_insert_iff]
    refine ⟨heq, by rw [heq]; exact List.mem_insert_iff.mpr (Or.inr hsrc)⟩
  · intro hr hc hd
    simp [moveStep, fsRename, fsCopy, fsRemoveFile, hsrc, hr, hc, hd,
      List.mem_insert_iff]

theorem move_primitive_fallback_witness :
    moveStep (FsOracle.mk (fun _ _ => true) (fun _ _ => true)
        (fun _ => false)) (initState twoFilesFS)
        (exBase ++ [("a.txt".toList)]) (exBase ++ [("c.txt".toList)]) =
      (initState twoFilesFS,
        some (RunError.copyFailed (exBase ++ [("a.txt".toList)])
          (exBase ++ [("c.txt".toList)]))) ∧
    (exBase ++ [("a.txt".toList)]) ∈
      (moveStep (FsOracle.mk (fun _ _ => true) (fun _ _ => true)
          (fun _ => false)) (initState twoFilesFS)
          (exBase ++ [("a.txt".toList)])
          (exBase ++ [("c.txt".toList)])).1.fs.files :=
  (move_primitive_fallback _ _ _ _ (by decide)).2.1 rfl rfl

/-- C8: when a planned move's destination exists and differs from its
source, a run without `force` stops that move with the conflict error
naming the destination and leaves the filesystem untouched; with `force`
the existing destination file is removed first and the source is then
renamed into its place, in that trace order. -/
theorem conflict_handling (o : FsOracle) (st : RunState) (src dest : Path)
    (hne : src ≠ dest) (hex : fsExists st.fs dest) :
    execPlanned o false st src dest =
      ({ st with trace := st.trace ++ [Ev.process src dest] },
        some (RunError.conflictExists dest)) ∧
    (execPlanned o false st src dest).1.fs = st.fs ∧
    (dest ∈ st.fs.files → src ∈ st.fs.files →
      execPlanned noFail true st src dest =
        ({ st with
            fs := { st.fs with
              files := ((st.fs.files.erase dest).erase src).insert dest },
            trace := st.trace ++
              [Ev.process src dest, Ev.removeDest dest,
                Ev.rename src dest] },
          none)) := by
  have h1 : execPlanned o false st src dest =
      ({ st with trace := st.trace ++ [Ev.process src dest] },
        some (RunError.conflictExists dest)) := by
    simp [execPlanned, hne, hex]
  refine ⟨h1, by rw [h1], ?_⟩
  intro hdf hsf
  have hsrc' : src ∈ st.fs.files.erase dest :=
    (List.mem_erase_of_ne hne).mpr hsf
  simp [execPlanned, hne, hex, fsRemoveFile, hdf, noFail, moveStep,
    fsRename, hsrc']

theorem conflict_handling_witness :
    execPlanned noFail false (initState upperInPackFS)
        (exBase ++ [("A.TXT".toList)])
        (exBase ++ [("pack-1".toList), ("A.TXT".toList)]) =
      ({ initState upperInPackFS with
          trace := [Ev.process (exBase ++ [("A.TXT".toList)])
            (exBase ++ [("pack-1".toList), ("A.TXT".toList)])] },
        some (RunError.conflictExists
          (exBase ++ [("pack-1".toList), ("A.TXT".toList)]))) :=
  (conflict_handling noFail (initState upperInPackFS)
    (exBase ++ [("A.TXT".toList)])
    (exBase ++ [("pack-1".toList), ("A.TXT".toList)])
    (by decide) (by decide)).1

/-! ## Preservation lemmas for the run loop -/

theorem pairFS_dirs {op : FS × Bool} {fs0 : FS} (hop : op.1.dirs = fs0.dirs)
    {fs1 : FS} {b : Bool} (heq : op = (fs1, b)) : fs1.dirs = fs0.dirs := by
  rw [heq] at hop
  exact hop

theorem fsRename_dirs (o : FsOracle) (fs : FS) (src dest : Path) :
    (fsRename o fs src dest).1.dirs = fs.dirs := by
  unfold fsRename
  repeat' split
  all_goals rfl

theorem fsCopy_dirs (o : FsOracle) (fs : FS) (src dest : Path) :
    (fsCopy o fs src dest).1.dirs = fs.dirs := by
  unfold fsCopy
  repeat' split
  all_goals rfl

theorem fsRemoveFile_dirs (o : FsOracle) (fs : FS) (p : Path) :
    (fsRemoveFile o fs p).1.dirs = fs.dirs := by
  unfold fsRemoveFile
  repeat' split
  all_goals rfl

theorem moveStep_dirs (o : FsOracle) (st : RunState) (src dest : Path) :
    (moveStep o st src dest).1.fs.dirs = st.fs.dirs := by
  unfold moveStep
  split
  · rename_i fs1 heq
    exact pairFS_dirs (fsRename_dirs o st.fs src dest) heq
  · rename_i r1 heq1
    split
    · rename_i fsc heq2
      have hc : fsc.dirs = st.fs.dirs :=
        pairFS_dirs (fsCopy_dirs o st.fs src dest) heq2
      split
      · rename_i fsd heq3
        have hd : fsd.dirs = fsc.dirs :=
          pairFS_dirs (fsRemoveFile_dirs o fsc src) heq3
        show fsd.dirs = st.fs.dirs
        rw [hd, hc]
      · exact hc
    · rfl

theorem execPlanned_dirs (o : FsOracle) (force : Bool) (st : RunState)
    (src dest : Path) :
    (execPlanned o force st src dest).1.fs.dirs = st.fs.dirs := by
  unfold execPlanned
  split
  · rfl
  · split
    · split
      · split
        · rename_i fs1 heq
          rw [moveStep_dirs]
          exact pairFS_dirs (fsRemoveFile_dirs o st.fs dest) heq
        · rfl
      · rfl
    · rw [moveStep_dirs]

theorem execLoop_dirs (o : FsOracle) (force : Bool) :
    ∀ (l : List (Path × Path)) (st : RunState),
      (execLoop o force st l).1.fs.dirs = st.fs.dirs := by
  intro l
  induction l with
  | nil => intro st; rfl
  | cons hd tl ih =>
    intro st
    obtain ⟨src, dest⟩ := hd
    show (match execPlanned o force st src dest with
      | (st', none) => execLoop o force st' tl
      | (st', some e) => (st', some e)).1.fs.dirs = st.fs.dirs
    rcases h : execPlanned o force st src dest with ⟨st', e⟩
    have hd' : st'.fs.dirs = st.fs.dirs := by
      have := execPlanned_dirs o force st src dest
      rw [h] at this
      exact this
    cases e with
    | none => rw [ih st', hd']
    | some err => exact hd'

theorem planBucket_fs (folderPath : Path) :
    ∀ (b : List Path) (st : RunState),
      (planBucket folderPath st b).1.fs = st.fs := by
  intro b
  induction b with
  | nil => intro st; rfl
  | cons src rest ih =>
    intro st
    show (match src.getLast? with
      | none => (st, some (RunError.invalidFilename src))
      | some name => planBucket folderPath _ rest).1.fs = st.fs
    rcases src.getLast? with _ | name
    · rfl
    · rw [ih]

theorem runBucket_dirs_mono (o : FsOracle) (base : Path) (pfx sfx : Str)
    (dryRun force : Bool) (st : RunState) (i : Nat) (bucket : List Path)
    (p : Path) (hp : p ∈ st.fs.dirs) :
    p ∈ (runBucket o base pfx sfx dryRun force st i bucket).1.fs.dirs := by
  unfold runBucket
  split
  · exact hp
  · rename_i folderName _
    split
    · rename_i st' e hpb
      have hfs : st'.fs = st.fs := by
        have := planBucket_fs (base ++ [folderName]) bucket st
        rw [hpb] at this
        exact this
      show p ∈ st'.fs.dirs
      rw [hfs]
      exact hp
    · rename_i st' hpb
      have hfs : st'.fs = st.fs := by
        have := planBucket_fs (base ++ [folderName]) bucket st
        rw [hpb] at this
        exact this
      split
      · show p ∈ st'.fs.dirs
        rw [hfs]
        exact hp
      · split
        · split
          · rw [execLoop_dirs, hfs]
            exact hp
          · show p ∈ st'.fs.dirs
            rw [hfs]
            exact hp
        · rw [execLoop_dirs]
          show p ∈ (fsCreateDir st'.fs (base ++ [folderName])).dirs
          unfold fsCreateDir
          refine List.mem_insert_iff.mpr (Or.inr ?_)
          rw [hfs]
          exact hp

theorem runBucket_none_folder (o : FsOracle) (base : Path) (pfx sfx : Str)
    (force : Bool) (st : RunState) (i : Nat) (bucket : List Path)
    (hok : (runBucket o base pfx sfx false force st i bucket).2 = none) :
    ∃ nm, format_folder_name pfx (i + 1) sfx = Except.ok nm ∧
      (base ++ [nm]) ∈
        (runBucket o base pfx sfx false force st i bucket).1.fs.dirs := by
  unfold runBucket at hok ⊢
  split at hok
  · cases hok
  · rename_i folderName hfmt
    rw [hfmt]
    refine ⟨folderName, rfl, ?_⟩
    split at hok
    · cases hok
    · rename_i st' hpb
      rw [if_neg (by decide : ¬ (false = true))] at hok ⊢
      split at hok
      · split at hok
        · rename_i hex hdir
          rw [if_pos hex, if_pos hdir]
          rw [execLoop_dirs]
          exact hdir
        · cases hok
      · rename_i hex
        rw [if_neg hex]
        rw [execLoop_dirs]
        show (base ++ [folderName]) ∈
          (fsCreateDir st'.fs (base ++ [folderName])).dirs
        unfold fsCreateDir
        exact List.mem_insert_iff.mpr (Or.inl rfl)

theorem runBuckets_dirs_mono (o : FsOracle) (base : Path) (pfx sfx : Str)
    (dryRun force : Bool) :
    ∀ (bs : List (List Path)) (st : RunState) (i : Nat) (p : Path),
      p ∈ st.fs.dirs →
      p ∈ (runBuckets o base pfx sfx dryRun force st i bs).1.fs.dirs := by
  intro bs
  induction bs with
  | nil => intro st i p hp; exact hp
  | cons b rest ih =>
    intro st i p hp
    show p ∈ (match runBucket o base pfx sfx dryRun force st i b with
      | (st', none) => runBuckets o base pfx sfx dryRun force st' (i + 1) rest
      | (st', some e) => (st', some e)).1.fs.dirs
    rcases h : runBucket o base pfx sfx dryRun force st i b with ⟨st', e⟩
    have hp' : p ∈ st'.fs.dirs := by
      have := runBucket_dirs_mono o base pfx sfx dryRun force st i b p hp
      rw [h] at this
      exact this
    cases e with
    | none => exact ih st' (i + 1) p hp'
    | some err => exact hp'

theorem runBuckets_none_folders (o : FsOracle) (base : Path) (pfx sfx : Str)
    (force : Bool) :
    ∀ (bs : List (List Path)) (st : RunState) (i : Nat),
      (runBuckets o base pfx sfx false force st i bs).2 = none →
      ∀ j, j < bs.length →
        ∃ nm, format_folder_name pfx (i + j + 1) sfx = Except.ok nm ∧
          (base ++ [nm]) ∈
            (runBuckets o base pfx sfx false force st i bs).1.fs.dirs := by
  intro bs
  induction bs with
  | nil => intro st i _ j hj; exact absurd hj (by simp)
  | cons b rest ih =>
    intro st i hok j hj
    have hshow : runBuckets o base pfx sfx false force st i (b :: rest) =
        (match runBucket o base pfx sfx false force st i b with
          | (st', none) =>
            runBuckets o base pfx sfx false force st' (i + 1) rest
          | (st', some e) => (st', some e)) := rfl
    rw [hshow] at hok ⊢
    rcases h : runBucket o base pfx sfx false force st i b with ⟨st', e⟩
    rw [h] at hok
    cases e with
    | some err => cases hok
    | none =>
      match j with
      | 0 =>
        obtain ⟨nm, hnm, hmem⟩ :=
          runBucket_none_folder o base pfx sfx force st i b (by rw [h])
        rw [h] at hmem
        exact ⟨nm, by simpa using hnm,
          runBuckets_dirs_mono o base pfx sfx false force rest st' (i + 1)
            (base ++ [nm]) hmem⟩
      | Nat.succ j' =>
        obtain ⟨nm, hnm, hmem⟩ := ih st' (i + 1) hok j' (by
          simp at hj
          omega)
        refine ⟨nm, ?_, hmem⟩
        have harith : i + 1 + j' + 1 = i + (j' + 1) + 1 := by omega
        rw [← harith]
        exact hnm

/-- C5 (amended): in every non-dry run that matches at least one file and
completes without error, a destination folder exists afterwards for every
index from 1 to N — created, or reused when already present — even when
the bucket of that index holds zero files. -/
theorem run_creates_all_folders (o : FsOracle) (fs0 : FS) (base : Path)
    (m : Str) (n : Nat) (pfx sfx : Str) (recursive force : Bool)
    (hok : (run o fs0 base m n pfx sfx recursive false force).2 = none)
    (hne : collect_files fs0 base m recursive pfx ≠ []) :
    ∀ k, k < n → ∃ nm, format_folder_name pfx (k + 1) sfx = Except.ok nm ∧
      (base ++ [nm]) ∈
        (run o fs0 base m n pfx sfx recursive false force).1.fs.dirs := by
  intro k hk
  have h0 : ¬ (n = 0) := by omega
  unfold run at hok ⊢
  rw [if_neg h0] at hok ⊢
  by_cases h1 : fsExists fs0 base
  · rw [if_neg (not_not_intro h1)] at hok ⊢
    by_cases h2 : base ∈ fs0.dirs
    · rw [if_neg (not_not_intro h2)] at hok ⊢
      rw [if_neg hne] at hok ⊢
      have hlen : (partition (collect_files fs0 base m recursive pfx) n).length
          = n := partition_length _ n (by omega)
      obtain ⟨nm, hnm, hmem⟩ := runBuckets_none_folders o base pfx sfx force
        (partition (collect_files fs0 base m recursive pfx) n)
        (initState fs0) 0 hok k (by rw [hlen]; exact hk)
      exact ⟨nm, by simpa using hnm, hmem⟩
    · rw [if_pos h2] at hok
      simp at hok
  · rw [if_pos h1] at hok
    simp at hok

theorem run_creates_all_folders_witness :
    ∃ nm, format_folder_name packPfx (2 + 1) ("numbers".toList) =
        Except.ok nm ∧
      (exBase ++ [nm]) ∈
        (run noFail fiveFilesFS exBase txtPat 3 packPfx ("numbers".toList)
          false false true).1.fs.dirs :=
  run_creates_all_folders noFail fiveFilesFS exBase txtPat 3 packPfx
    ("numbers".toList) false true (by decide) (by decide) 2 (by decide)

/-! ## Trace-shape lemmas -/

/-- Lists of planning events only. -/
def planOnly (l : List Ev) : Prop := ∀ ev ∈ l, isPlanEv ev = true

/-- Lists with no planning event. -/
def nonPlanOnly (l : List Ev) : Prop := ∀ ev ∈ l, isPlanEv ev = false

theorem moveStep_trace (o : FsOracle) (st : RunState) (src dest : Path) :
    ∃ e, (moveStep o st src dest).1.trace = st.trace ++ e ∧ nonPlanOnly e := by
  unfold moveStep
  split
  · exact ⟨[Ev.rename src dest], rfl, by intro ev hev; simp at hev; subst hev; rfl⟩
  · split
    · split
      · exact ⟨[Ev.copy src dest, Ev.removeSrc src], rfl, by
          intro ev hev
          rcases List.mem_cons.mp hev with h | h
          · subst h; rfl
          · simp at h; subst h; rfl⟩
      · exact ⟨[Ev.copy src dest], rfl, by intro ev hev; simp at hev; subst hev; rfl⟩
    · exact ⟨[], (List.append_nil _).symm, by intro ev hev; cases hev⟩

theorem execPlanned_trace (o : FsOracle) (force : Bool) (st : RunState)
    (src dest : Path) :
    ∃ e, (execPlanned o force st src dest).1.trace = st.trace ++ e ∧
      nonPlanOnly e := by
  unfold execPlanned
  split
  · exact ⟨[Ev.process src dest], rfl, by intro ev hev; simp at hev; subst hev; rfl⟩
  · split
    · split
      · split
        · rename_i fs1 heq
          obtain ⟨e, he, hne⟩ := moveStep_trace o
            { st with
                fs := fs1
                trace := st.trace ++ [Ev.process src dest, Ev.removeDest dest] }
            src dest
          refine ⟨[Ev.process src dest, Ev.removeDest dest] ++ e, ?_, ?_⟩
          · rw [he]
            simp
          · intro ev hev
            rcases List.mem_append.mp hev with h | h
            · rcases List.mem_cons.mp h with h1 | h1
              · subst h1; rfl
              · simp at h1; subst h1; rfl
            · exact hne ev h
        · exact ⟨[Ev.process src dest], rfl, by
            intro ev hev; simp at hev; subst hev; rfl⟩
      · exact ⟨[Ev.process src dest], rfl, by
          intro ev hev; simp at hev; subst hev; rfl⟩
    · obtain ⟨e, he, hne⟩ := moveStep_trace o
        { st with trace := st.trace ++ [Ev.process src dest] } src dest
      refine ⟨[Ev.process src dest] ++ e, ?_, ?_⟩
      · rw [he]
        simp
      · intro ev hev
        rcases List.mem_append.mp hev with h | h
        · simp at h; subst h; rfl
        · exact hne ev h

theorem execLoop_trace (o : FsOracle) (force : Bool) :
    ∀ (l : List (Path × Path)) (st : RunState),
      ∃ e, (execLoop o force st l).1.trace = st.trace ++ e ∧
        nonPlanOnly e := by
  intro l
  induction l with
  | nil =>
    intro st
    exact ⟨[], (List.append_nil _).symm, by intro ev hev; cases hev⟩
  | cons hd tl ih =>
    intro st
    obtain ⟨src, dest⟩ := hd
    show ∃ e, (match execPlanned o force st src dest with
      | (st', none) => execLoop o force st' tl
      | (st', some err) => (st', some err)).1.trace = st.trace ++ e ∧
        nonPlanOnly e
    rcases h : execPlanned o force st src dest with ⟨st', err⟩
    obtain ⟨e1, he1, hne1⟩ := execPlanned_trace o force st src dest
    rw [h] at he1
    cases err with
    | none =>
      obtain ⟨e2, he2, hne2⟩ := ih st'
      refine ⟨e1 ++ e2, ?_, ?_⟩
      · rw [he2, he1]
        simp
      · intro ev hev
        rcases List.mem_append.mp hev with hm | hm
        · exact hne1 ev hm
        · exact hne2 ev hm
    | some e => exact ⟨e1, he1, hne1⟩

theorem planBucket_trace (folderPath : Path) :
    ∀ (b : List Path) (st : RunState),
      ∃ p, (planBucket folderPath st b).1.trace = st.trace ++ p ∧
        planOnly p := by
  intro b
  induction b with
  | nil =>
    intro st
    exact ⟨[], (List.append_nil _).symm, by intro ev hev; cases hev⟩
  | cons src rest ih =>
    intro st
    show ∃ p, (match src.getLast? with
      | none => (st, some (RunError.invalidFilename src))
      | some name => planBucket folderPath
          { st with
              planned := st.planned ++ [(src, folderPath ++ [name])]
              trace := st.trace ++ [Ev.plan src (folderPath ++ [name])] }
          rest).1.trace = st.trace ++ p ∧ planOnly p
    rcases src.getLast? with _ | name
    · exact ⟨[], (List.append_nil _).symm, by intro ev hev; cases hev⟩
    · obtain ⟨p, hp, hpl⟩ := ih
        { st with
            planned := st.planned ++ [(src, folderPath ++ [name])]
            trace := st.trace ++ [Ev.plan src (folderPath ++ [name])] }
      refine ⟨[Ev.plan src (folderPath ++ [name])] ++ p, ?_, ?_⟩
      · rw [hp]
        simp
      · intro ev hev
        rcases List.mem_append.mp hev with hm | hm
        · simp at hm; subst hm; rfl
        · exact hpl ev hm

theorem runBucket_trace (o : FsOracle) (base : Path) (pfx sfx : Str)
    (dryRun force : Bool) (st : RunState) (i : Nat) (bucket : List Path) :
    ∃ p e, (runBucket o base pfx sfx dryRun force st i bucket).1.trace =
        st.trace ++ p ++ e ∧ planOnly p ∧ nonPlanOnly e := by
  unfold runBucket
  split
  · refine ⟨[], [], by simp, ?_, ?_⟩
    · intro ev hev; cases hev
    · intro ev hev; cases hev
  · rename_i folderName _
    rcases hpb : planBucket (base ++ [folderName]) st bucket with ⟨st', err⟩
    obtain ⟨p, hp, hpl⟩ := planBucket_trace (base ++ [folderName]) bucket st
    rw [hpb] at hp
    cases err with
    | some e =>
      refine ⟨p, [], by rw [hp]; simp, hpl, ?_⟩
      intro ev hev; cases hev
    | none =>
      show ∃ p e, (if dryRun = true then (st', none) else _).1.trace =
        st.trace ++ p ++ e ∧ planOnly p ∧ nonPlanOnly e
      by_cases hdry : dryRun = true
      · rw [if_pos hdry]
        refine ⟨p, [], by rw [hp]; simp, hpl, ?_⟩
        intro ev hev; cases hev
      · rw [if_neg hdry]
        split
        · split
          · obtain ⟨e, he, hne⟩ := execLoop_trace o force
              (st'.planned.filter fun pr =>
                (display (base ++ [folderName])).isPrefixOf (display pr.2)) st'
            refine ⟨p, e, ?_, hpl, hne⟩
            rw [he, hp]
          · refine ⟨p, [], by rw [hp]; simp, hpl, ?_⟩
            intro ev hev; cases hev
        · obtain ⟨e, he, hne⟩ := execLoop_trace o force
            (st'.planned.filter fun pr =>
              (display (base ++ [folderName])).isPrefixOf (display pr.2))
            { st' with
                fs := fsCreateDir st'.fs (base ++ [folderName])
                trace := st'.trace ++ [Ev.mkdir (base ++ [folderName])] }
          refine ⟨p, [Ev.mkdir (base ++ [folderName])] ++ e, ?_, hpl, ?_⟩
          · rw [he]
            show st'.trace ++ [Ev.mkdir (base ++ [folderName])] ++ e =
              st.trace ++ p ++ ([Ev.mkdir (base ++ [folderName])] ++ e)
            rw [hp]
            simp
          · intro ev hev
            rcases List.mem_append.mp hev with hm | hm
            · simp at hm; subst hm; rfl
            · exact hne ev hm

theorem runBuckets_trace (o : FsOracle) (base : Path) (pfx sfx : Str)
    (dryRun force : Bool) :
    ∀ (bs : List (List Path)) (st : RunState) (i : Nat),
      ∃ segs : List (List Ev),
        (runBuckets o base pfx sfx dryRun force st i bs).1.trace =
          st.trace ++ segs.flatten ∧
        ∀ seg ∈ segs, ∃ p e, seg = p ++ e ∧ planOnly p ∧ nonPlanOnly e := by
  intro bs
  induction bs with
  | nil =>
    intro st i
    refine ⟨[], ?_, ?_⟩
    · show st.trace = st.trace ++ List.flatten []
      simp
    · intro seg hseg; cases hseg
  | cons b rest ih =>
    intro st i
    show ∃ segs, (match runBucket o base pfx sfx dryRun force st i b with
      | (st', none) => runBuckets o base pfx sfx dryRun force st' (i + 1) rest
      | (st', some e) => (st', some e)).1.trace = st.trace ++ segs.flatten ∧ _
    rcases h : runBucket o base pfx sfx dryRun force st i b with ⟨st', err⟩
    obtain ⟨p, e, hpe, hpl, hne⟩ :=
      runBucket_trace o base pfx sfx dryRun force st i b
    rw [h] at hpe
    cases err with
    | some er =>
      refine ⟨[p ++ e], ?_, ?_⟩
      · show st'.trace = st.trace ++ List.flatten [p ++ e]
        rw [hpe]
        simp
      · intro seg hseg
        rcases List.mem_singleton.mp hseg with rfl
        exact ⟨p, e, rfl, hpl, hne⟩
    | none =>
      obtain ⟨segs', hsegs', hall'⟩ := ih st' (i + 1)
      refine ⟨(p ++ e) :: segs', ?_, ?_⟩
      · rw [hsegs', hpe]
        simp
      · intro seg hseg
        rcases List.mem_cons.mp hseg with rfl | hm
        · exact ⟨p, e, rfl, hpl, hne⟩
        · exact hall' seg hm

/-! ## Membership in collect_files -/

theorem splitSlash_no_slash :
    ∀ (l : List Char), '/' ∉ l → splitSlash l = (l, []) := by
  intro l
  induction l with
  | nil => intro _; rfl
  | cons c rest ih =>
    intro h
    have hc : ¬ (c = '/') := fun hcc => h (by rw [hcc]; exact List.mem_cons_self _ _)
    have hr : '/' ∉ rest := fun hm => h (List.mem_cons_of_mem c hm)
    show (if c = '/' then _ else (c :: (splitSlash rest).1, (splitSlash rest).2))
      = (c :: rest, [])
    rw [if_neg hc, ih hr]

theorem patSegs_no_slash (p : Str) (h : '/' ∉ p) : patSegs p = [p] := by
  unfold patSegs
  rw [splitSlash_no_slash p h]

theorem segsMatch_single (ci : Bool) (pat nm : Str)
    (hne : pat ≠ ('*' :: '*' :: [])) :
    segsMatch ci [pat] [nm] = globMatchCI ci pat nm := by
  unfold segsMatch
  rw [if_neg hne]
  show (globMatchCI ci pat nm && true) = globMatchCI ci pat nm
  rw [Bool.and_true]

theorem mem_walkMatch {fsFiles : List Path} {base : Path} {pattern : Str}
    {md : Option Nat} {ci : Bool} {p : Path} :
    p ∈ walkMatch fsFiles base pattern md ci ↔
      p ∈ fsFiles ∧ base <+: p ∧ base.length < p.length ∧
        depthOk md (p.length - base.length) = true ∧
        segsMatch ci (patSegs pattern) (p.drop base.length) = true := by
  unfold walkMatch
  rw [List.mem_filter]
  simp only [Bool.and_eq_true, decide_eq_true_eq]
  tauto

theorem mem_pushNew {acc : List Path} {hd x : Path} :
    x ∈ pushNew acc hd ↔ x ∈ acc ∨ x = hd := by
  unfold pushNew
  split
  · rename_i hmem
    constructor
    · exact Or.inl
    · intro h
      rcases h with h | h
      · exact h
      · rw [h]; exact hmem
  · rw [List.mem_append, List.mem_singleton]

theorem mem_foldl_pushNew :
    ∀ (l acc : List Path) (x : Path),
      x ∈ l.foldl pushNew acc ↔ x ∈ acc ∨ x ∈ l := by
  intro l
  induction l with
  | nil => intro acc x; simp
  | cons hd tl ih =>
    intro acc x
    show x ∈ tl.foldl pushNew (pushNew acc hd) ↔ _
    rw [ih, mem_pushNew, List.mem_cons]
    tauto

theorem mem_redoFold (fsFiles : List Path) (pattern : Str) :
    ∀ (ds : List Path) (acc : List Path) (x : Path),
      x ∈ ds.foldl (fun acc2 d =>
          (walkMatch fsFiles d pattern (some 1) false).foldl pushNew acc2)
        acc ↔
      x ∈ acc ∨ ∃ d ∈ ds, x ∈ walkMatch fsFiles d pattern (some 1) false := by
  intro ds
  induction ds with
  | nil => intro acc x; simp
  | cons d ds ih =>
    intro acc x
    show x ∈ ds.foldl _
        ((walkMatch fsFiles d pattern (some 1) false).foldl pushNew acc) ↔ _
    rw [ih, mem_foldl_pushNew]
    simp only [List.mem_cons]
    constructor
    · intro h
      rcases h with (h | h) | ⟨d', hd', hw⟩
      · exact Or.inl h
      · exact Or.inr ⟨d, Or.inl rfl, h⟩
      · exact Or.inr ⟨d', Or.inr hd', hw⟩
    · intro h
      rcases h with h | ⟨d', hd', hw⟩
      · exact Or.inl (Or.inl h)
      · rcases hd' with h1 | h1
        · subst h1; exact Or.inl (Or.inr hw)
        · exact Or.inr ⟨d', h1, hw⟩

theorem mem_collect_files {fs : FS} {base : Path} {pattern : Str}
    {recursive : Bool} {pfx : Str} {p : Path} :
    p ∈ collect_files fs base pattern recursive pfx ↔
      p ∈ walkMatch fs.files base pattern
          (if recursive then none else some 1) true ∨
      ∃ d ∈ fs.dirs.filter (fun d =>
          decide (base <+: d) && decide (d.length = base.length + 1) &&
            pfx.isPrefixOf (d.getLastD [])),
        p ∈ walkMatch fs.files d pattern (some 1) false := by
  unfold collect_files
  rw [List.mem_insertionSort (fun a b => pathLe a b = true),
    mem_redoFold fs.files pattern]

/-- C6 (amended): the main walk of the base directory matches
case-insensitively — any direct child of the base whose name matches the
(separator-free, non-`**`) pattern after case folding is collected — but
the one-level redo rescan inside prefixed subdirectories matches
case-sensitively: a file one level inside any subdirectory whose name
fails the case-sensitive match is never collected by a non-recursive run,
whatever a case-insensitive match would say. -/
theorem collect_case_sensitivity :
    (∀ (fs : FS) (base : Path) (pattern : Str) (recursive : Bool)
        (pfx nm : Str),
      (base ++ [nm]) ∈ fs.files → '/' ∉ pattern →
      pattern ≠ ('*' :: '*' :: []) →
      globMatch (lower pattern) (lower nm) = true →
      (base ++ [nm]) ∈ collect_files fs base pattern recursive pfx) ∧
    (∀ (fs : FS) (base : Path) (pattern : Str) (pfx dn nm : Str),
      '/' ∉ pattern → pattern ≠ ('*' :: '*' :: []) →
      globMatch pattern nm = false →
      (base ++ [dn, nm]) ∉ collect_files fs base pattern false pfx) := by
  constructor
  · intro fs base pattern recursive pfx nm hf hs hstar hm
    rw [mem_collect_files]
    left
    rw [mem_walkMatch]
    have hlen : (base ++ [nm]).length = base.length + 1 := by
      rw [List.length_append]
      rfl
    refine ⟨hf, List.prefix_append base [nm], by omega, ?_, ?_⟩
    · rcases recursive with _ | _
      · show depthOk (some 1) _ = true
        rw [hlen]
        simp [depthOk]
      · rfl
    · rw [patSegs_no_slash pattern hs, List.drop_left,
        segsMatch_single true pattern nm hstar]
      show globMatch (lower pattern) (lower nm) = true
      exact hm
  · intro fs base pattern pfx dn nm hs hstar hm hmem
    rw [mem_collect_files] at hmem
    have hplen : (base ++ [dn, nm]).length = base.length + 2 := by
      rw [List.length_append]
      rfl
    rcases hmem with hmain | ⟨d, _, hwalk⟩
    · rw [mem_walkMatch] at hmain
      obtain ⟨_, _, _, hdep, _⟩ := hmain
      rw [hplen] at hdep
      simp [depthOk] at hdep
    · rw [mem_walkMatch] at hwalk
      obtain ⟨_, hpre, hlt, hdep, hseg⟩ := hwalk
      rw [hplen] at hlt
      have hdep' : (base ++ [dn, nm]).length - d.length ≤ 1 := by
        simpa [depthOk] using hdep
      rw [hplen] at hdep'
      have hdlen : d.length = base.length + 1 := by omega
      have hlen2 : (base ++ [dn]).length = base.length + 1 := by
        rw [List.length_append]
        rfl
      have hsplit : base ++ [dn, nm] = (base ++ [dn]) ++ [nm] := by simp
      have hd_eq : d = base ++ [dn] := by
        have htake := List.prefix_iff_eq_take.mp hpre
        rw [hsplit] at htake
        rw [htake, hdlen, List.take_append_of_le_length (by rw [hlen2]),
          ← hlen2, List.take_length]
      have hdrop : (base ++ [dn, nm]).drop d.length = [nm] := by
        rw [hsplit, hdlen, ← hlen2, List.drop_left]
      rw [hdrop, patSegs_no_slash pattern hs,
        segsMatch_single false pattern nm hstar] at hseg
      have hcs : globMatch pattern nm = true := hseg
      rw [hm] at hcs
      cases hcs

theorem collect_case_sensitivity_witness :
    (exBase ++ [("B.TXT".toList)]) ∈
      collect_files upperInBaseFS exBase txtPat false packPfx ∧
    (exBase ++ [("pack-1".toList), ("A.TXT".toList)]) ∉
      collect_files upperInPackFS exBase txtPat false packPfx :=
  ⟨collect_case_sensitivity.1 upperInBaseFS exBase txtPat false packPfx
      ("B.TXT".toList) (by decide) (by decide) (by decide) (by decide),
   collect_case_sensitivity.2 upperInPackFS exBase txtPat packPfx
      ("pack-1".toList) ("A.TXT".toList) (by decide) (by decide) (by decide)⟩

/-! ## The bucket filter of the executor

The executor selects the planned moves of the current bucket by a string
prefix test on displayed paths (lib.rs line 82).  For the `numbers` and
`letters` suffix styles no earlier bucket's destination passes a later
bucket's test, because no (positive) index's rendering is a prefix of an
earlier index's rendering followed by `/`. -/

theorem display_append (p q : Path) :
    display (p ++ q) = display p ++ display q := by
  induction p with
  | nil => rfl
  | cons c rest ih =>
    show ('/' :: c) ++ display (rest ++ q) = (('/' :: c) ++ display rest) ++ _
    rw [ih, List.append_assoc]

theorem display_singleton (c : Str) : display [c] = '/' :: c := by
  show ('/' :: c) ++ display [] = '/' :: c
  rw [show display [] = [] from rfl, List.append_nil]

theorem isPrefixOf_display_child (folder : Path) (f : Str) :
    (display folder).isPrefixOf (display (folder ++ [f])) = true := by
  rw [List.isPrefixOf_iff_prefix, display_append]
  exact List.prefix_append _ _

theorem display_filter_neg (base : Path) (pfx : Str) (rep : Nat → List Char)
    (hsl : ∀ k, ∀ c ∈ rep k, c ≠ '/')
    (hple : ∀ a b, 1 ≤ a → 1 ≤ b → rep a <+: rep b → a ≤ b)
    (a b : Nat) (ha : 1 ≤ a) (hb : 1 ≤ b) (hba : b < a) (f : Str) :
    (display (base ++ [pfx ++ '-' :: rep a])).isPrefixOf
      (display ((base ++ [pfx ++ '-' :: rep b]) ++ [f])) = false := by
  rw [Bool.eq_false_iff]
  intro hcontra
  rw [List.isPrefixOf_iff_prefix] at hcontra
  rw [display_append, display_singleton, display_append, display_append,
    display_singleton, display_singleton] at hcontra
  rw [List.append_assoc] at hcontra
  replace hcontra := (List.prefix_append_right_inj (display base)).mp hcontra
  rw [List.cons_append] at hcontra
  replace hcontra := (List.cons_prefix_cons.mp hcontra).2
  rw [List.append_assoc] at hcontra
  replace hcontra := (List.prefix_append_right_inj pfx).mp hcontra
  rw [List.cons_append] at hcontra
  replace hcontra := (List.cons_prefix_cons.mp hcontra).2
  by_cases hl : (rep a).length ≤ (rep b).length
  · have hpre : rep a <+: rep b := by
      have ht := List.prefix_iff_eq_take.mp hcontra
      rw [List.take_append_of_le_length hl] at ht
      rw [ht]
      exact List.take_prefix _ _
    have := hple a b ha hb hpre
    omega
  · push_neg at hl
    have hchar := hcontra.getElem hl
    have hlt2 : (rep b).length < (rep b ++ '/' :: f).length := by simp
    have hr : (rep b ++ '/' :: f)[(rep b).length] = '/' := by
      rw [List.getElem_append_right (Nat.le_refl _)]
      simp
    rw [hr] at hchar
    exact hsl a '/' (hchar ▸ List.getElem_mem hl) rfl

/-- The pairs planned for one bucket (lib.rs lines 56-63): each source
file is sent to the bucket's folder under its own file name. -/
def bucketPlan (folder : Path) (b : List Path) : List (Path × Path) :=
  b.map fun s => (s, folder ++ [s.getLastD []])

/-- All pairs planned for a run: bucket `i` (0-based) goes to the folder
named for index `i + 1`. -/
def plansOf (base : Path) (pfx sfx : Str) : Nat → List (List Path) → List (Path × Path)
  | _, [] => []
  | i, b :: bs =>
    match format_folder_name pfx (i + 1) sfx with
    | Except.error _ => []
    | Except.ok nm => bucketPlan (base ++ [nm]) b ++ plansOf base pfx sfx (i + 1) bs

/-- The planned-move list of buckets before bucket `i`: every destination
sits in the folder of some earlier index. -/
def plannedShape (base : Path) (pfx : Str) (rep : Nat → List Char) (i : Nat)
    (P : List (Path × Path)) : Prop :=
  ∀ pr ∈ P, ∃ j f, j < i ∧
    pr.2 = (base ++ [pfx ++ '-' :: rep (j + 1)]) ++ [f]

/-- The planning events recorded for one bucket, in order: one `Ev.plan`
per planned pair. -/
def planEvs (folder : Path) (b : List Path) : List Ev :=
  (bucketPlan folder b).map fun pr => Ev.plan pr.1 pr.2

/-- The interleaved trace of the bucket loop: bucket `i` (0-based)
contributes its planning events, then its block `e` of execution events
taken from the per-bucket list `es`, then come the later buckets. -/
def segTrace (base : Path) (pfx : Str) (rep : Nat → List Char) :
    Nat → List (List Path) → List (List Ev) → List Ev
  | _, [], _ => []
  | _, _ :: _, [] => []
  | i, b :: bs, e :: es =>
    planEvs (base ++ [pfx ++ '-' :: rep (i + 1)]) b ++ e ++
      segTrace base pfx rep (i + 1) bs es

theorem filter_earlier_nil (base : Path) (pfx : Str) (rep : Nat → List Char)
    (hsl : ∀ k, ∀ c ∈ rep k, c ≠ '/')
    (hple : ∀ a b, 1 ≤ a → 1 ≤ b → rep a <+: rep b → a ≤ b)
    (i : Nat) (P : List (Path × Path))
    (hgood : plannedShape base pfx rep i P) :
    P.filter (fun pr =>
      (display (base ++ [pfx ++ '-' :: rep (i + 1)])).isPrefixOf
        (display pr.2)) = [] := by
  rw [List.filter_eq_nil_iff]
  intro pr hpr
  obtain ⟨j, f, hj, hpr2⟩ := hgood pr hpr
  rw [hpr2, display_filter_neg base pfx rep hsl hple (i + 1) (j + 1)
    (by omega) (by omega) (by omega) f]
  exact Bool.false_ne_true

theorem filter_bucket_self (folder : Path) (b : List Path) :
    (bucketPlan folder b).filter (fun pr =>
      (display folder).isPrefixOf (display pr.2)) = bucketPlan folder b := by
  rw [List.filter_eq_self]
  intro pr hpr
  obtain ⟨s, _, rfl⟩ := List.mem_map.mp hpr
  exact isPrefixOf_display_child folder (s.getLastD [])

/-! ## Planned-list and processed-trace bookkeeping -/

theorem moveStep_planned (o : FsOracle) (st : RunState) (src dest : Path) :
    (moveStep o st src dest).1.planned = st.planned := by
  unfold moveStep
  repeat' split
  all_goals rfl

theorem execPlanned_planned (o : FsOracle) (force : Bool) (st : RunState)
    (src dest : Path) :
    (execPlanned o force st src dest).1.planned = st.planned := by
  unfold execPlanned
  repeat' split
  all_goals first
    | rfl
    | rw [moveStep_planned]

theorem execLoop_planned (o : FsOracle) (force : Bool) :
    ∀ (l : List (Path × Path)) (st : RunState),
      (execLoop o force st l).1.planned = st.planned := by
  intro l
  induction l with
  | nil => intro st; rfl
  | cons hd tl ih =>
    intro st
    obtain ⟨src, dest⟩ := hd
    show (match execPlanned o force st src dest with
      | (st', none) => execLoop o force st' tl
      | (st', some e) => (st', some e)).1.planned = st.planned
    rcases h : execPlanned o force st src dest with ⟨st', e⟩
    have hp : st'.planned = st.planned := by
      have := execPlanned_planned o force st src dest
      rw [h] at this
      exact this
    cases e with
    | none => rw [ih st', hp]
    | some err => exact hp

theorem processedOf_append (a b : List Ev) :
    processedOf (a ++ b) = processedOf a ++ processedOf b :=
  List.filterMap_append a b _

theorem moveStep_processed (o : FsOracle) (st : RunState) (src dest : Path) :
    processedOf (moveStep o st src dest).1.trace = processedOf st.trace := by
  unfold moveStep
  repeat' split
  all_goals first
    | rfl
    | (show processedOf (st.trace ++ _) = _
       rw [processedOf_append]
       simp [processedOf])

theorem execPlanned_processed (o : FsOracle) (force : Bool) (st : RunState)
    (src dest : Path) :
    processedOf (execPlanned o force st src dest).1.trace =
      processedOf st.trace ++ [(src, dest)] := by
  unfold execPlanned
  repeat' split
  all_goals first
    | (show processedOf (st.trace ++ [Ev.process src dest]) = _
       rw [processedOf_append]
       simp [processedOf])
    | (rw [moveStep_processed]
       show processedOf (st.trace ++ _) = _
       rw [processedOf_append]
       simp [processedOf])

theorem execLoop_processed (o : FsOracle) (force : Bool) :
    ∀ (l : List (Path × Path)) (st : RunState),
      (execLoop o force st l).2 = none →
      processedOf (execLoop o force st l).1.trace =
        processedOf st.trace ++ l := by
  intro l
  induction l with
  | nil =>
    intro st _
    show processedOf st.trace = processedOf st.trace ++ []
    rw [List.append_nil]
  | cons hd tl ih =>
    intro st hok
    obtain ⟨src, dest⟩ := hd
    have hshow : execLoop o force st ((src, dest) :: tl) =
        (match execPlanned o force st src dest with
          | (st', none) => execLoop o force st' tl
          | (st', some e) => (st', some e)) := rfl
    rw [hshow] at hok ⊢
    rcases h : execPlanned o force st src dest with ⟨st', e⟩
    rw [h] at hok
    have hp : processedOf st'.trace = processedOf st.trace ++ [(src, dest)] := by
      have := execPlanned_processed o force st src dest
      rw [h] at this
      exact this
    cases e with
    | none =>
      rw [ih st' hok, hp, List.append_assoc]
      rfl
    | some err => cases hok

theorem planBucket_ok (folderPath : Path) :
    ∀ (b : List Path) (st : RunState), (∀ s ∈ b, s ≠ []) →
      planBucket folderPath st b =
        ({ st with
            planned := st.planned ++ bucketPlan folderPath b
            trace := st.trace ++
              (bucketPlan folderPath b).map fun pr => Ev.plan pr.1 pr.2 },
          none) := by
  intro b
  induction b with
  | nil =>
    intro st _
    show (st, none) = _
    simp [bucketPlan]
  | cons src rest ih =>
    intro st hne
    have hsrc : src ≠ [] := hne src (List.mem_cons_self _ _)
    have hlast : src.getLast? = some (src.getLastD []) := by
      rcases src with _ | ⟨c, cs⟩
      · exact absurd rfl hsrc
      · rw [List.getLastD_eq_getLast?, List.getLast?_eq_getLast (c :: cs)
          (by intro h; cases h)]
        rfl
    show (match src.getLast? with
      | none => (st, some (RunError.invalidFilename src))
      | some name => planBucket folderPath
          { st with
              planned := st.planned ++ [(src, folderPath ++ [name])]
              trace := st.trace ++ [Ev.plan src (folderPath ++ [name])] }
          rest) = _
    rw [hlast]
    show planBucket folderPath _ rest = _
    rw [ih _ (fun s hs => hne s (List.mem_cons_of_mem src hs))]
    simp [bucketPlan]

theorem processedOf_plans (l : List (Path × Path)) :
    processedOf (l.map fun pr => Ev.plan pr.1 pr.2) = [] := by
  induction l with
  | nil => rfl
  | cons hd tl ih => simpa [processedOf] using ih

theorem runBucket_real (o : FsOracle) (base : Path) (pfx sfx : Str)
    (force : Bool) (rep : Nat → List Char)
    (hfmt : ∀ k, format_folder_name pfx k sfx =
      Except.ok (pfx ++ '-' :: rep k))
    (hsl : ∀ k, ∀ c ∈ rep k, c ≠ '/')
    (hple : ∀ a b, 1 ≤ a → 1 ≤ b → rep a <+: rep b → a ≤ b)
    (st : RunState) (i : Nat) (b : List Path)
    (hgood : plannedShape base pfx rep i st.planned)
    (hne : ∀ s ∈ b, s ≠ [])
    (hok : (runBucket o base pfx sfx false force st i b).2 = none) :
    (runBucket o base pfx sfx false force st i b).1.planned =
      st.planned ++ bucketPlan (base ++ [pfx ++ '-' :: rep (i + 1)]) b ∧
    processedOf (runBucket o base pfx sfx false force st i b).1.trace =
      processedOf st.trace ++
        bucketPlan (base ++ [pfx ++ '-' :: rep (i + 1)]) b := by
  have hflt : (st.planned ++
        bucketPlan (base ++ [pfx ++ '-' :: rep (i + 1)]) b).filter
      (fun pr => (display (base ++ [pfx ++ '-' :: rep (i + 1)])).isPrefixOf
        (display pr.2)) =
      bucketPlan (base ++ [pfx ++ '-' :: rep (i + 1)]) b := by
    rw [List.filter_append,
      filter_earlier_nil base pfx rep hsl hple i st.planned hgood,
      filter_bucket_self, List.nil_append]
  have hbucket : runBucket o base pfx sfx false force st i b =
      (if fsExists st.fs (base ++ [pfx ++ '-' :: rep (i + 1)]) then
        if (base ++ [pfx ++ '-' :: rep (i + 1)]) ∈ st.fs.dirs then
          execLoop o force
            { st with
                planned := st.planned ++
                  bucketPlan (base ++ [pfx ++ '-' :: rep (i + 1)]) b
                trace := st.trace ++
                  (bucketPlan (base ++ [pfx ++ '-' :: rep (i + 1)]) b).map
                    fun pr => Ev.plan pr.1 pr.2 }
            ((st.planned ++
                bucketPlan (base ++ [pfx ++ '-' :: rep (i + 1)]) b).filter
              fun pr =>
                (display (base ++ [pfx ++ '-' :: rep (i + 1)])).isPrefixOf
                  (display pr.2))
        else
          ({ st with
              planned := st.planned ++
                bucketPlan (base ++ [pfx ++ '-' :: rep (i + 1)]) b
              trace := st.trace ++
                (bucketPlan (base ++ [pfx ++ '-' :: rep (i + 1)]) b).map
                  fun pr => Ev.plan pr.1 pr.2 },
            some (RunError.destExistsNotDir
              (base ++ [pfx ++ '-' :: rep (i + 1)])))
      else
        execLoop o force
          { st with
              fs := fsCreateDir st.fs (base ++ [pfx ++ '-' :: rep (i + 1)])
              planned := st.planned ++
                bucketPlan (base ++ [pfx ++ '-' :: rep (i + 1)]) b
              trace := (st.trace ++
                  (bucketPlan (base ++ [pfx ++ '-' :: rep (i + 1)]) b).map
                    fun pr => Ev.plan pr.1 pr.2) ++
                [Ev.mkdir (base ++ [pfx ++ '-' :: rep (i + 1)])] }
          ((st.planned ++
              bucketPlan (base ++ [pfx ++ '-' :: rep (i + 1)]) b).filter
            fun pr =>
              (display (base ++ [pfx ++ '-' :: rep (i + 1)])).isPrefixOf
                (display pr.2))) := by
    unfold runBucket
    simp only [hfmt (i + 1), planBucket_ok _ b st hne]
    rw [if_neg (by decide : ¬ (false = true))]
  rw [hbucket] at hok ⊢
  rw [hflt] at hok ⊢
  by_cases hex : fsExists st.fs (base ++ [pfx ++ '-' :: rep (i + 1)])
  · rw [if_pos hex] at hok ⊢
    by_cases hdir : (base ++ [pfx ++ '-' :: rep (i + 1)]) ∈ st.fs.dirs
    · rw [if_pos hdir] at hok ⊢
      constructor
      · rw [execLoop_planned]
      · rw [execLoop_processed o force _ _ hok]
        show processedOf (st.trace ++
          (bucketPlan (base ++ [pfx ++ '-' :: rep (i + 1)]) b).map
            (fun pr => Ev.plan pr.1 pr.2)) ++ _ = _
        rw [processedOf_append, processedOf_plans, List.append_nil]
    · rw [if_neg hdir] at hok
      cases hok
  · rw [if_neg hex] at hok ⊢
    constructor
    · rw [execLoop_planned]
    · rw [execLoop_processed o force _ _ hok]
      show processedOf ((st.trace ++
          (bucketPlan (base ++ [pfx ++ '-' :: rep (i + 1)]) b).map
            (fun pr => Ev.plan pr.1 pr.2)) ++
          [Ev.mkdir (base ++ [pfx ++ '-' :: rep (i + 1)])]) ++ _ = _
      rw [processedOf_append, processedOf_append, processedOf_plans,
        List.append_nil]
      show (processedOf st.trace ++ processedOf [Ev.mkdir _]) ++ _ = _
      rw [show processedOf [Ev.mkdir (base ++ [pfx ++ '-' :: rep (i + 1)])]
        = [] from rfl, List.append_nil]

theorem plansOf_cons (base : Path) (pfx sfx : Str) (rep : Nat → List Char)
    (hfmt : ∀ k, format_folder_name pfx k sfx =
      Except.ok (pfx ++ '-' :: rep k)) (i : Nat) (b : List Path)
    (bs : List (List Path)) :
    plansOf base pfx sfx i (b :: bs) =
      bucketPlan (base ++ [pfx ++ '-' :: rep (i + 1)]) b ++
        plansOf base pfx sfx (i + 1) bs := by
  show (match format_folder_name pfx (i + 1) sfx with
    | Except.error _ => []
    | Except.ok nm =>
      bucketPlan (base ++ [nm]) b ++ plansOf base pfx sfx (i + 1) bs) = _
  rw [hfmt (i + 1)]

theorem runBucket_dry (o : FsOracle) (base : Path) (pfx sfx : Str)
    (force : Bool) (rep : Nat → List Char)
    (hfmt : ∀ k, format_folder_name pfx k sfx =
      Except.ok (pfx ++ '-' :: rep k))
    (st : RunState) (i : Nat) (b : List Path) (hne : ∀ s ∈ b, s ≠ []) :
    runBucket o base pfx sfx true force st i b =
      ({ st with
          planned := st.planned ++
            bucketPlan (base ++ [pfx ++ '-' :: rep (i + 1)]) b
          trace := st.trace ++
            (bucketPlan (base ++ [pfx ++ '-' :: rep (i + 1)]) b).map
              fun pr => Ev.plan pr.1 pr.2 },
        none) := by
  unfold runBucket
  simp only [hfmt (i + 1), planBucket_ok _ b st hne]
  rw [if_pos trivial]

theorem runBuckets_dry (o : FsOracle) (base : Path) (pfx sfx : Str)
    (force : Bool) (rep : Nat → List Char)
    (hfmt : ∀ k, format_folder_name pfx k sfx =
      Except.ok (pfx ++ '-' :: rep k)) :
    ∀ (bs : List (List Path)) (st : RunState) (i : Nat),
      (∀ b ∈ bs, ∀ s ∈ b, s ≠ []) →
      (runBuckets o base pfx sfx true force st i bs).1.planned =
        st.planned ++ plansOf base pfx sfx i bs := by
  intro bs
  induction bs with
  | nil =>
    intro st i _
    show st.planned = st.planned ++ []
    rw [List.append_nil]
  | cons b bs ih =>
    intro st i hne
    show (match runBucket o base pfx sfx true force st i b with
      | (st', none) => runBuckets o base pfx sfx true force st' (i + 1) bs
      | (st', some e) => (st', some e)).1.planned = _
    rw [runBucket_dry o base pfx sfx force rep hfmt st i b
      (hne b (List.mem_cons_self _ _))]
    show (runBuckets o base pfx sfx true force _ (i + 1) bs).1.planned = _
    rw [ih _ (i + 1) (fun b' hb' s hs =>
      hne b' (List.mem_cons_of_mem _ hb') s hs)]
    show (st.planned ++ bucketPlan (base ++ [pfx ++ '-' :: rep (i + 1)]) b)
      ++ plansOf base pfx sfx (i + 1) bs = _
    rw [plansOf_cons base pfx sfx rep hfmt i b bs, List.append_assoc]

theorem runBuckets_real (o : FsOracle) (base : Path) (pfx sfx : Str)
    (force : Bool) (rep : Nat → List Char)
    (hfmt : ∀ k, format_folder_name pfx k sfx =
      Except.ok (pfx ++ '-' :: rep k))
    (hsl : ∀ k, ∀ c ∈ rep k, c ≠ '/')
    (hple : ∀ a b, 1 ≤ a → 1 ≤ b → rep a <+: rep b → a ≤ b) :
    ∀ (bs : List (List Path)) (st : RunState) (i : Nat),
      plannedShape base pfx rep i st.planned →
      (∀ b ∈ bs, ∀ s ∈ b, s ≠ []) →
      (runBuckets o base pfx sfx false force st i bs).2 = none →
      (runBuckets o base pfx sfx false force st i bs).1.planned =
        st.planned ++ plansOf base pfx sfx i bs ∧
      processedOf (runBuckets o base pfx sfx false force st i bs).1.trace =
        processedOf st.trace ++ plansOf base pfx sfx i bs := by
  intro bs
  induction bs with
  | nil =>
    intro st i _ _ _
    constructor
    · show st.planned = st.planned ++ []
      rw [List.append_nil]
    · show processedOf st.trace = processedOf st.trace ++ []
      rw [List.append_nil]
  | cons b bs ih =>
    intro st i hgood hne hok
    have hshow : runBuckets o base pfx sfx false force st i (b :: bs) =
        (match runBucket o base pfx sfx false force st i b with
          | (st', none) =>
            runBuckets o base pfx sfx false force st' (i + 1) bs
          | (st', some e) => (st', some e)) := rfl
    rw [hshow] at hok ⊢
    rcases h : runBucket o base pfx sfx false force st i b with ⟨st1, e⟩
    rw [h] at hok
    cases e with
    | some err => cases hok
    | none =>
      have hbok : (runBucket o base pfx sfx false force st i b).2 = none := by
        rw [h]
      obtain ⟨hp1, hp2⟩ := runBucket_real o base pfx sfx force rep hfmt hsl
        hple st i b hgood (hne b (List.mem_cons_self _ _)) hbok
      rw [h] at hp1 hp2
      have hgood1 : plannedShape base pfx rep (i + 1) st1.planned := by
        rw [hp1]
        intro pr hpr
        rcases List.mem_append.mp hpr with hm | hm
        · obtain ⟨j, f, hj, hshape⟩ := hgood pr hm
          exact ⟨j, f, by omega, hshape⟩
        · obtain ⟨src, _, rfl⟩ := List.mem_map.mp hm
          exact ⟨i, src.getLastD [], by omega, rfl⟩
      obtain ⟨hq1, hq2⟩ := ih st1 (i + 1) hgood1
        (fun b' hb' s hs => hne b' (List.mem_cons_of_mem _ hb') s hs) hok
      constructor
      · rw [hq1, hp1, plansOf_cons base pfx sfx rep hfmt i b bs,
          List.append_assoc]
      · rw [hq2, hp2, plansOf_cons base pfx sfx rep hfmt i b bs,
          List.append_assoc]

theorem segTrace_all_nil (base : Path) (pfx : Str) (rep : Nat → List Char) :
    ∀ (bs : List (List Path)) (es : List (List Ev)) (i : Nat),
      (∀ b ∈ bs, b = []) → (∀ e ∈ es, e = []) →
      segTrace base pfx rep i bs es = [] := by
  intro bs
  induction bs with
  | nil => intro es i _ _; rfl
  | cons b bs ih =>
    intro es i hb he
    cases es with
    | nil => rfl
    | cons e es' =>
      have hb0 : b = [] := hb b (List.mem_cons_self _ _)
      have he0 : e = [] := he e (List.mem_cons_self _ _)
      subst hb0
      subst he0
      show planEvs (base ++ [pfx ++ '-' :: rep (i + 1)]) [] ++ [] ++
        segTrace base pfx rep (i + 1) bs es' = []
      rw [ih es' (i + 1) (fun b' h => hb b' (List.mem_cons_of_mem _ h))
        (fun e' h => he e' (List.mem_cons_of_mem _ h))]
      rfl

theorem runBucket_trace_exact (o : FsOracle) (base : Path) (pfx sfx : Str)
    (force : Bool) (rep : Nat → List Char)
    (hfmt : ∀ k, format_folder_name pfx k sfx =
      Except.ok (pfx ++ '-' :: rep k))
    (hsl : ∀ k, ∀ c ∈ rep k, c ≠ '/')
    (hple : ∀ a b, 1 ≤ a → 1 ≤ b → rep a <+: rep b → a ≤ b)
    (st : RunState) (i : Nat) (b : List Path)
    (hgood : plannedShape base pfx rep i st.planned)
    (hne : ∀ s ∈ b, s ≠ [])
    (hok : (runBucket o base pfx sfx false force st i b).2 = none) :
    ∃ e, (runBucket o base pfx sfx false force st i b).1.trace =
        st.trace ++ planEvs (base ++ [pfx ++ '-' :: rep (i + 1)]) b ++ e ∧
      nonPlanOnly e ∧
      processedOf e = bucketPlan (base ++ [pfx ++ '-' :: rep (i + 1)]) b := by
  simp only [planEvs]
  have hflt : (st.planned ++
        bucketPlan (base ++ [pfx ++ '-' :: rep (i + 1)]) b).filter
      (fun pr => (display (base ++ [pfx ++ '-' :: rep (i + 1)])).isPrefixOf
        (display pr.2)) =
      bucketPlan (base ++ [pfx ++ '-' :: rep (i + 1)]) b := by
    rw [List.filter_append,
      filter_earlier_nil base pfx rep hsl hple i st.planned hgood,
      filter_bucket_self, List.nil_append]
  have hbucket : runBucket o base pfx sfx false force st i b =
      (if fsExists st.fs (base ++ [pfx ++ '-' :: rep (i + 1)]) then
        if (base ++ [pfx ++ '-' :: rep (i + 1)]) ∈ st.fs.dirs then
          execLoop o force
            { st with
                planned := st.planned ++
                  bucketPlan (base ++ [pfx ++ '-' :: rep (i + 1)]) b
                trace := st.trace ++
                  (bucketPlan (base ++ [pfx ++ '-' :: rep (i + 1)]) b).map
                    fun pr => Ev.plan pr.1 pr.2 }
            ((st.planned ++
                bucketPlan (base ++ [pfx ++ '-' :: rep (i + 1)]) b).filter
              fun pr =>
                (display (base ++ [pfx ++ '-' :: rep (i + 1)])).isPrefixOf
                  (display pr.2))
        else
          ({ st with
              planned := st.planned ++
                bucketPlan (base ++ [pfx ++ '-' :: rep (i + 1)]) b
              trace := st.trace ++
                (bucketPlan (base ++ [pfx ++ '-' :: rep (i + 1)]) b).map
                  fun pr => Ev.plan pr.1 pr.2 },
            some (RunError.destExistsNotDir
              (base ++ [pfx ++ '-' :: rep (i + 1)])))
      else
        execLoop o force
          { st with
              fs := fsCreateDir st.fs (base ++ [pfx ++ '-' :: rep (i + 1)])
              planned := st.planned ++
                bucketPlan (base ++ [pfx ++ '-' :: rep (i + 1)]) b
              trace := (st.trace ++
                  (bucketPlan (base ++ [pfx ++ '-' :: rep (i + 1)]) b).map
                    fun pr => Ev.plan pr.1 pr.2) ++
                [Ev.mkdir (base ++ [pfx ++ '-' :: rep (i + 1)])] }
          ((st.planned ++
              bucketPlan (base ++ [pfx ++ '-' :: rep (i + 1)]) b).filter
            fun pr =>
              (display (base ++ [pfx ++ '-' :: rep (i + 1)])).isPrefixOf
                (display pr.2))) := by
    unfold runBucket
    simp only [hfmt (i + 1), planBucket_ok _ b st hne]
    rw [if_neg (by decide : ¬ (false = true))]
  rw [hbucket] at hok ⊢
  rw [hflt] at hok ⊢
  by_cases hex : fsExists st.fs (base ++ [pfx ++ '-' :: rep (i + 1)])
  · rw [if_pos hex] at hok ⊢
    by_cases hdir : (base ++ [pfx ++ '-' :: rep (i + 1)]) ∈ st.fs.dirs
    · rw [if_pos hdir] at hok ⊢
      obtain ⟨e, he, hnp⟩ := execLoop_trace o force
        (bucketPlan (base ++ [pfx ++ '-' :: rep (i + 1)]) b)
        { st with
            planned := st.planned ++
              bucketPlan (base ++ [pfx ++ '-' :: rep (i + 1)]) b
            trace := st.trace ++
              (bucketPlan (base ++ [pfx ++ '-' :: rep (i + 1)]) b).map
                fun pr => Ev.plan pr.1 pr.2 }
      have hpr := execLoop_processed o force
        (bucketPlan (base ++ [pfx ++ '-' :: rep (i + 1)]) b)
        { st with
            planned := st.planned ++
              bucketPlan (base ++ [pfx ++ '-' :: rep (i + 1)]) b
            trace := st.trace ++
              (bucketPlan (base ++ [pfx ++ '-' :: rep (i + 1)]) b).map
                fun pr => Ev.plan pr.1 pr.2 } hok
      rw [he, processedOf_append] at hpr
      refine ⟨e, ?_, hnp, List.append_cancel_left hpr⟩
      rw [he]
    · rw [if_neg hdir] at hok
      cases hok
  · rw [if_neg hex] at hok ⊢
    obtain ⟨e, he, hnp⟩ := execLoop_trace o force
      (bucketPlan (base ++ [pfx ++ '-' :: rep (i + 1)]) b)
      { st with
          fs := fsCreateDir st.fs (base ++ [pfx ++ '-' :: rep (i + 1)])
          planned := st.planned ++
            bucketPlan (base ++ [pfx ++ '-' :: rep (i + 1)]) b
          trace := (st.trace ++
              (bucketPlan (base ++ [pfx ++ '-' :: rep (i + 1)]) b).map
                fun pr => Ev.plan pr.1 pr.2) ++
            [Ev.mkdir (base ++ [pfx ++ '-' :: rep (i + 1)])] }
    have hpr := execLoop_processed o force
      (bucketPlan (base ++ [pfx ++ '-' :: rep (i + 1)]) b)
      { st with
          fs := fsCreateDir st.fs (base ++ [pfx ++ '-' :: rep (i + 1)])
          planned := st.planned ++
            bucketPlan (base ++ [pfx ++ '-' :: rep (i + 1)]) b
          trace := (st.trace ++
              (bucketPlan (base ++ [pfx ++ '-' :: rep (i + 1)]) b).map
                fun pr => Ev.plan pr.1 pr.2) ++
            [Ev.mkdir (base ++ [pfx ++ '-' :: rep (i + 1)])] } hok
    rw [he, processedOf_append] at hpr
    refine ⟨[Ev.mkdir (base ++ [pfx ++ '-' :: rep (i + 1)])] ++ e, ?_, ?_, ?_⟩
    · rw [he]
      show (st.trace ++
          (bucketPlan (base ++ [pfx ++ '-' :: rep (i + 1)]) b).map
            (fun pr => Ev.plan pr.1 pr.2)) ++
          [Ev.mkdir (base ++ [pfx ++ '-' :: rep (i + 1)])] ++ e = _
      rw [List.append_assoc (st.trace ++ _)]
    · intro ev hev
      rcases List.mem_append.mp hev with hm | hm
      · simp at hm
        subst hm
        rfl
      · exact hnp ev hm
    · rw [processedOf_append,
        show processedOf [Ev.mkdir (base ++ [pfx ++ '-' :: rep (i + 1)])]
          = [] from rfl, List.nil_append]
      exact List.append_cancel_left hpr

theorem runBuckets_trace_exact (o : FsOracle) (base : Path) (pfx sfx : Str)
    (force : Bool) (rep : Nat → List Char)
    (hfmt : ∀ k, format_folder_name pfx k sfx =
      Except.ok (pfx ++ '-' :: rep k))
    (hsl : ∀ k, ∀ c ∈ rep k, c ≠ '/')
    (hple : ∀ a b, 1 ≤ a → 1 ≤ b → rep a <+: rep b → a ≤ b) :
    ∀ (bs : List (List Path)) (st : RunState) (i : Nat),
      plannedShape base pfx rep i st.planned →
      (∀ b ∈ bs, ∀ s ∈ b, s ≠ []) →
      (runBuckets o base pfx sfx false force st i bs).2 = none →
      ∃ es : List (List Ev),
        es.length = bs.length ∧
        (∀ e ∈ es, nonPlanOnly e) ∧
        (∀ j, j < bs.length →
          processedOf (es.getD j []) =
            bucketPlan (base ++ [pfx ++ '-' :: rep (i + j + 1)])
              (bs.getD j [])) ∧
        (runBuckets o base pfx sfx false force st i bs).1.trace =
          st.trace ++ segTrace base pfx rep i bs es := by
  intro bs
  induction bs with
  | nil =>
    intro st i _ _ _
    refine ⟨[], rfl, ?_, ?_, ?_⟩
    · intro e he
      cases he
    · intro j hj
      exact absurd hj (Nat.not_lt_zero j)
    · show st.trace = st.trace ++ segTrace base pfx rep i [] []
      rw [show segTrace base pfx rep i [] [] = [] from rfl, List.append_nil]
  | cons b bs ih =>
    intro st i hgood hne hok
    have hshow : runBuckets o base pfx sfx false force st i (b :: bs) =
        (match runBucket o base pfx sfx false force st i b with
          | (st1, none) =>
            runBuckets o base pfx sfx false force st1 (i + 1) bs
          | (st1, some e) => (st1, some e)) := rfl
    rw [hshow] at hok ⊢
    rcases h : runBucket o base pfx sfx false force st i b with ⟨st1, err⟩
    rw [h] at hok
    cases err with
    | some er => cases hok
    | none =>
      have hbok : (runBucket o base pfx sfx false force st i b).2 = none := by
        rw [h]
      obtain ⟨e0, he0, hnp0, hpr0⟩ := runBucket_trace_exact o base pfx sfx
        force rep hfmt hsl hple st i b hgood
        (hne b (List.mem_cons_self _ _)) hbok
      rw [h] at he0
      obtain ⟨hp1, _⟩ := runBucket_real o base pfx sfx force rep hfmt hsl
        hple st i b hgood (hne b (List.mem_cons_self _ _)) hbok
      rw [h] at hp1
      have hgood1 : plannedShape base pfx rep (i + 1) st1.planned := by
        rw [hp1]
        intro pr hpr
        rcases List.mem_append.mp hpr with hm | hm
        · obtain ⟨j, f, hj, hshape⟩ := hgood pr hm
          exact ⟨j, f, by omega, hshape⟩
        · obtain ⟨src, _, rfl⟩ := List.mem_map.mp hm
          exact ⟨i, src.getLastD [], by omega, rfl⟩
      obtain ⟨es', hlen', hnp', hproc', htr'⟩ := ih st1 (i + 1) hgood1
        (fun b' hb' s hs => hne b' (List.mem_cons_of_mem _ hb') s hs) hok
      refine ⟨e0 :: es', by simp [hlen'], ?_, ?_, ?_⟩
      · intro e he
        rcases List.mem_cons.mp he with rfl | hm
        · exact hnp0
        · exact hnp' e hm
      · intro j hj
        cases j with
        | zero =>
          rw [List.getD_cons_zero, List.getD_cons_zero]
          exact hpr0
        | succ j =>
          have hj' : j < bs.length := by
            simpa using hj
          rw [List.getD_cons_succ, List.getD_cons_succ,
            show i + (j + 1) + 1 = i + 1 + j + 1 from by omega]
          exact hproc' j hj'
      · rw [htr', he0]
        show st.trace ++ planEvs (base ++ [pfx ++ '-' :: rep (i + 1)]) b ++
            e0 ++ segTrace base pfx rep (i + 1) bs es' =
          st.trace ++ (planEvs (base ++ [pfx ++ '-' :: rep (i + 1)]) b ++
            e0 ++ segTrace base pfx rep (i + 1) bs es')
        simp [List.append_assoc]

theorem collect_files_nonnil (fs : FS) (base : Path) (pattern : Str)
    (recursive : Bool) (pfx : Str) :
    ∀ p ∈ collect_files fs base pattern recursive pfx, p ≠ [] := by
  intro p hp hnil
  subst hnil
  rw [mem_collect_files] at hp
  rcases hp with h | ⟨d, _, h⟩ <;>
    · rw [mem_walkMatch] at h
      obtain ⟨_, _, hlt, _, _⟩ := h
      simp at hlt

theorem partition_sources (files : List Path) (n : Nat) (hn : 1 ≤ n) :
    ∀ b ∈ partition files n, ∀ s ∈ b, s ∈ files := by
  intro b hb s hs
  rw [← partition_join files n hn]
  exact List.mem_flatten.mpr ⟨b, hb, hs⟩

/-- C1 (amended): for suffix styles `numbers` and `letters`, whenever the
real (non-dry) run completes without error, the planned-move list it
computes is exactly the one the dry run computes, and the executor
processes exactly the planned pairs, once each and in order (each one
carried out, or skipped as a no-op when source equals destination). -/
theorem run_dry_run_fidelity (o : FsOracle) (fs0 : FS) (base : Path)
    (m : Str) (n : Nat) (pfx sfx : Str) (recursive force : Bool)
    (hsfx : sfx = ("numbers".toList) ∨ sfx = ("letters".toList))
    (hok : (run o fs0 base m n pfx sfx recursive false force).2 = none) :
    (run o fs0 base m n pfx sfx recursive true force).1.planned =
      (run o fs0 base m n pfx sfx recursive false force).1.planned ∧
    processedOf (run o fs0 base m n pfx sfx recursive false force).1.trace =
      (run o fs0 base m n pfx sfx recursive false force).1.planned := by
  obtain ⟨rep, hfmt, hsl, hple⟩ :
      ∃ rep : Nat → List Char,
        (∀ k, format_folder_name pfx k sfx =
          Except.ok (pfx ++ '-' :: rep k)) ∧
        (∀ k, ∀ c ∈ rep k, c ≠ '/') ∧
        (∀ a b, 1 ≤ a → 1 ≤ b → rep a <+: rep b → a ≤ b) := by
    rcases hsfx with h | h
    · subst h
      refine ⟨natRepr, fun k => ?_, natRepr_no_slash,
        fun a b ha hb hp => natRepr_prefix_le ha hb hp⟩
      unfold format_folder_name
      rw [if_pos rfl]
    · subst h
      refine ⟨toLetters, fun k => ?_, toLetters_no_slash,
        fun a b _ _ hp => toLetters_prefix_le hp⟩
      unfold format_folder_name
      rw [if_neg (by decide), if_pos rfl]
  unfold run at hok ⊢
  by_cases h0 : n = 0
  · rw [if_pos h0] at hok
    simp at hok
  · rw [if_neg h0] at hok
    rw [if_neg h0, if_neg h0]
    by_cases h1 : fsExists fs0 base
    · rw [if_neg (not_not_intro h1)] at hok
      rw [if_neg (not_not_intro h1), if_neg (not_not_intro h1)]
      by_cases h2 : base ∈ fs0.dirs
      · rw [if_neg (not_not_intro h2)] at hok
        rw [if_neg (not_not_intro h2), if_neg (not_not_intro h2)]
        by_cases h3 : collect_files fs0 base m recursive pfx = []
        · rw [if_pos h3, if_pos h3]
          exact ⟨rfl, rfl⟩
        · rw [if_neg h3] at hok
          rw [if_neg h3, if_neg h3]
          have hsrc : ∀ b ∈ partition (collect_files fs0 base m recursive pfx)
              n, ∀ s ∈ b, s ≠ [] := by
            intro b hb s hs
            exact collect_files_nonnil fs0 base m recursive pfx s
              (partition_sources _ n (by omega) b hb s hs)
          have hdry := runBuckets_dry o base pfx sfx force rep hfmt
            (partition (collect_files fs0 base m recursive pfx) n)
            (initState fs0) 0 hsrc
          obtain ⟨hreal1, hreal2⟩ := runBuckets_real o base pfx sfx force rep
            hfmt hsl hple (partition (collect_files fs0 base m recursive pfx) n)
            (initState fs0) 0 (by intro pr hpr; cases hpr) hsrc hok
          constructor
          · rw [hdry, hreal1]
          · rw [hreal2, hreal1]
            rfl
      · rw [if_pos h2] at hok
        simp at hok
    · rw [if_pos h1] at hok
      simp at hok

theorem run_dry_run_fidelity_witness :
    (run noFail fiveFilesFS exBase txtPat 3 packPfx ("numbers".toList)
        false true true).1.planned =
      (run noFail fiveFilesFS exBase txtPat 3 packPfx ("numbers".toList)
        false false true).1.planned ∧
    processedOf (run noFail fiveFilesFS exBase txtPat 3 packPfx
        ("numbers".toList) false false true).1.trace =
      (run noFail fiveFilesFS exBase txtPat 3 packPfx ("numbers".toList)
        false false true).1.planned :=
  run_dry_run_fidelity noFail fiveFilesFS exBase txtPat 3 packPfx
    ("numbers".toList) false true (Or.inl rfl) (by decide)

/-- C4 (amended): buckets are planned and executed interleaved, not
planned all up front.  For the `numbers` and `letters` suffix styles, the
event trace of an error-free real run is exactly `segTrace` over the
actual partition: bucket by bucket in order, first bucket `i`'s planning
events (one `Ev.plan` per pair of `bucketPlan`, in pair order), then a
block of non-planning events whose processed moves are exactly bucket
`i`'s pairs — so every pair of a bucket is planned before any of that
bucket's moves is processed, and all of bucket `i`'s processing and
mutation happens before bucket `i + 1` is planned. -/
theorem run_trace_bucket_segments (o : FsOracle) (fs0 : FS) (base : Path)
    (m : Str) (n : Nat) (pfx sfx : Str) (recursive force : Bool)
    (hsfx : sfx = ("numbers".toList) ∨ sfx = ("letters".toList))
    (hok : (run o fs0 base m n pfx sfx recursive false force).2 = none) :
    ∃ (rep : Nat → List Char) (es : List (List Ev)),
      (∀ k, format_folder_name pfx k sfx =
        Except.ok (pfx ++ '-' :: rep k)) ∧
      es.length =
        (partition (collect_files fs0 base m recursive pfx) n).length ∧
      (∀ e ∈ es, nonPlanOnly e) ∧
      (∀ j, j < es.length →
        processedOf (es.getD j []) =
          bucketPlan (base ++ [pfx ++ '-' :: rep (j + 1)])
            ((partition (collect_files fs0 base m recursive pfx) n).getD
              j [])) ∧
      (run o fs0 base m n pfx sfx recursive false force).1.trace =
        segTrace base pfx rep 0
          (partition (collect_files fs0 base m recursive pfx) n) es := by
  obtain ⟨rep, hfmt, hsl, hple⟩ :
      ∃ rep : Nat → List Char,
        (∀ k, format_folder_name pfx k sfx =
          Except.ok (pfx ++ '-' :: rep k)) ∧
        (∀ k, ∀ c ∈ rep k, c ≠ '/') ∧
        (∀ a b, 1 ≤ a → 1 ≤ b → rep a <+: rep b → a ≤ b) := by
    rcases hsfx with h | h
    · subst h
      refine ⟨natRepr, fun k => ?_, natRepr_no_slash,
        fun a b ha hb hp => natRepr_prefix_le ha hb hp⟩
      unfold format_folder_name
      rw [if_pos rfl]
    · subst h
      refine ⟨toLetters, fun k => ?_, toLetters_no_slash,
        fun a b _ _ hp => toLetters_prefix_le hp⟩
      unfold format_folder_name
      rw [if_neg (by decide), if_pos rfl]
  unfold run at hok ⊢
  by_cases h0 : n = 0
  · rw [if_pos h0] at hok
    simp at hok
  · rw [if_neg h0] at hok ⊢
    by_cases h1 : fsExists fs0 base
    · rw [if_neg (not_not_intro h1)] at hok ⊢
      by_cases h2 : base ∈ fs0.dirs
      · rw [if_neg (not_not_intro h2)] at hok ⊢
        by_cases h3 : collect_files fs0 base m recursive pfx = []
        · rw [if_pos h3] at hok ⊢
          rw [h3]
          have hall : ∀ x ∈ partition ([] : List Path) n, x = [] :=
            List.flatten_eq_nil_iff.mp (partition_join [] n (by omega))
          refine ⟨rep, List.replicate n [], hfmt, ?_, ?_, ?_, ?_⟩
          · rw [List.length_replicate, partition_length [] n (by omega)]
          · intro e he
            have he0 : e = [] := List.eq_of_mem_replicate he
            subst he0
            intro ev hev
            cases hev
          · intro j hj
            have hg : (partition ([] : List Path) n).getD j [] = [] := by
              by_cases hjl : j < (partition ([] : List Path) n).length
              · rw [List.getD_eq_getElem _ _ hjl]
                exact hall _ (List.getElem_mem hjl)
              · simp [List.getD,
                  List.getElem?_eq_none (Nat.le_of_not_lt hjl)]
            have hr : (List.replicate n ([] : List Ev)).getD j [] = [] := by
              simp [List.getD]
            rw [hr, hg]
            rfl
          · rw [segTrace_all_nil base pfx rep (partition [] n)
              (List.replicate n []) 0 hall
              (fun e he => List.eq_of_mem_replicate he)]
            rfl
        · rw [if_neg h3] at hok ⊢
          have hsrc : ∀ b ∈ partition (collect_files fs0 base m recursive
              pfx) n, ∀ s ∈ b, s ≠ [] := by
            intro b hb s hs
            exact collect_files_nonnil fs0 base m recursive pfx s
              (partition_sources _ n (by omega) b hb s hs)
          obtain ⟨es, hlen, hnp, hproc, htr⟩ := runBuckets_trace_exact o
            base pfx sfx force rep hfmt hsl hple
            (partition (collect_files fs0 base m recursive pfx) n)
            (initState fs0) 0 (by intro pr hpr; cases hpr) hsrc hok
          refine ⟨rep, es, hfmt, hlen, hnp, ?_, ?_⟩
          · intro j hj
            have hj2 : j < (partition (collect_files fs0 base m recursive
                pfx) n).length := hlen ▸ hj
            have := hproc j hj2
            rwa [Nat.zero_add] at this
          · rw [htr]
            rfl
      · rw [if_pos h2] at hok
        simp at hok
    · rw [if_pos h1] at hok
      simp at hok

theorem run_trace_bucket_segments_witness :
    ∃ (rep : Nat → List Char) (es : List (List Ev)),
      (∀ k, format_folder_name packPfx k ("numbers".toList) =
        Except.ok (packPfx ++ '-' :: rep k)) ∧
      es.length =
        (partition (collect_files fiveFilesFS exBase txtPat false packPfx)
          3).length ∧
      (∀ e ∈ es, nonPlanOnly e) ∧
      (∀ j, j < es.length →
        processedOf (es.getD j []) =
          bucketPlan (exBase ++ [packPfx ++ '-' :: rep (j + 1)])
            ((partition (collect_files fiveFilesFS exBase txtPat false
              packPfx) 3).getD j [])) ∧
      (run noFail fiveFilesFS exBase txtPat 3 packPfx ("numbers".toList)
          false false true).1.trace =
        segTrace exBase packPfx rep 0
          (partition (collect_files fiveFilesFS exBase txtPat false
            packPfx) 3) es :=
  run_trace_bucket_segments noFail fiveFilesFS exBase txtPat 3 packPfx
    ("numbers".toList) false true (Or.inl rfl) (by decide)

end Refolder
